import Mathlib

/-!
Verification of the fatgraph/homology core of the FatGHoL repository.

The Python sources under verification are `rg.py`, `homology.py` and `main.py`
(current generation) together with the earlier generation kept in `src/rg.py`,
`src/homology.py`, `src/main.py` of the repository.  Helper modules
`cyclicseq.py`, `combinatorics.py`, `utils.py` and `simplematrix.py` are not
part of the analysed sources; the few primitives taken from them are modelled
from the specification (and pinned against the doctests that *are* in the
analysed sources) and are marked `Modelled from the spec:` below.

Conventions of the embedding:
* Python integers are `ℤ` (edge colors may be negative: external edges) or `ℕ`
  (indices, counts); Python `/` on ints is floor division, embedded as
  `Int.fdiv`.
* A Python generator is embedded as the list of the items it yields before it
  terminates or raises; a method that can fail an assertion is embedded either
  as an `Except` value or by the convention that a failing candidate yields
  nothing.
* Object caches (`_genus`, `_boundary_components`, `_contractions`, ...) hold
  `None` on a freshly built object; the embedding is of the cache-free
  computation, i.e. every derived attribute is recomputed from the owning
  graph's vertex structure.
-/

namespace FatGHoL

/-- Modelled from the spec: the missing `cyclicseq.CyclicList.rotate`.
`rotate r v` puts element `v[(j+r) mod L]` at position `j` (a leftward
rotation).  The direction is pinned by the in-source doctests
`Vertex([2,1,3]).make_canonical() == Vertex([3,2,1])` (rg.py line 127) and the
`Graph.contract` examples (rg.py lines 573-586). -/
def rotate (r : ℕ) (v : List ℤ) : List ℤ :=
  v.drop r ++ v.take r

/-- Modelled from the spec: equality of cyclic sequences (`CyclicList.__eq__`,
`CyclicTuple.__eq__` of the missing cyclicseq module): two sequences are equal
iff one is a rotation of the other ("compared for equality only up to
rotation, not reflection"). -/
def cyclicEqB (v w : List ℤ) : Bool :=
  v == w || (List.range v.length).any (fun s => rotate s v == w)

/-- First-difference scan of two equal-length integer lists, as performed by
the inner `for j in xrange(0,L)` loops of `Vertex.is_canonical_representative`
(rg.py lines 105-118) and `Vertex.make_canonical` (rg.py lines 130-143): walk
both lists in step; the first strictly smaller element gives `.lt` (the
Python loop `break`s), the first strictly greater element gives `.gt`, a full
scan without a strict difference gives `.eq`. -/
def lexCmp : List ℤ → List ℤ → Ordering
  | [], _ => .eq
  | _, [] => .eq
  | a :: as_, b :: bs =>
      if a < b then .lt else if b < a then .gt else lexCmp as_ bs

/-- Python's built-in `list.__lt__` on integer lists (lexicographic, a proper
prefix is smaller); this is the `super(Vertex, self).__lt__` comparison used
by `Vertex.__cmp__` (rg.py line 81). -/
def listLt : List ℤ → List ℤ → Bool
  | [], [] => false
  | [], _ :: _ => true
  | _ :: _, [] => false
  | a :: as_, b :: bs =>
      if a < b then true else if b < a then false else listLt as_ bs

/-- `Vertex.is_canonical_representative` (rg.py lines 90-118): `True` iff no
rotation of the vertex is lexicographically greater than the vertex itself.
Rotation `i` of the loop compares `self[(i+j) mod L]` against `self[j]` for
`j = 0, 1, ...`, i.e. it scans `rotate i v` against `v` first-difference-wise
(`lexCmp`); the method returns `False` as soon as some rotation scans
strictly greater. -/
def is_canonical_representative (v : List ℤ) : Bool :=
  ((List.range v.length).drop 1).all (fun i => lexCmp (rotate i v) v ≠ .gt)

/-- `Vertex.make_canonical` (rg.py lines 120-146): for each `i = 1, ..., L-1`
(in this order) the inner loop scans rotation `i` against the *un-rotated*
sequence; whenever the scan meets a strictly greater element first (that is,
`lexCmp (rotate i v) v = .gt`) the rotation amount `r` is set to `i`.  After
the loop the vertex is rotated by the final `r` (if positive).  Note that each
candidate rotation is compared against rotation 0, not against the best
rotation found so far. -/
def make_canonical (v : List ℤ) : List ℤ :=
  let r := ((List.range v.length).drop 1).foldl
    (fun r i => if lexCmp (rotate i v) v = .gt then i else r) 0
  if 0 < r then rotate r v else v

/-- `Vertex.__cmp__` (rg.py lines 56-85): vertices with lower valence come
first; vertices of equal valence are equal when the underlying cyclic
sequences are equal (`super(Vertex, self).__eq__`, i.e. cyclic equality), and
otherwise ordered by the underlying list comparison
(`super(Vertex, self).__lt__`). -/
def vertexCmp (v w : List ℤ) : Ordering :=
  if v.length < w.length then .lt
  else if w.length < v.length then .gt
  else if cyclicEqB v w then .eq
  else if listLt v w then .lt
  else .gt

end FatGHoL

namespace FatGHoL

/-- The decorated ribbon graph of rg.py (class `Graph`, lines 149-277).  Edge
colors are integers: colors `0 .. num_edges-1` are internal, negative colors
`-1 .. -num_external_edges` are external ("loose end") edges.  `endpoints`
stores, per edge, the pair of endpoint vertex indices (`none` in the second
component marks the missing endpoint of an external edge, Python's `None`).
`numbering` is the optional map from boundary cycles (cyclic tuples of edge
colors) to integer labels, stored as an association list. -/
structure Graph where
  vertices : List (List ℤ)
  numbering : Option (List (List ℤ × ℕ))
  num_edges : ℕ
  num_external_edges : ℕ
  num_vertices : ℕ
  endpoints : List (Option ℕ × Option ℕ)
deriving DecidableEq, Repr

/-- `Graph.__init__` on a plain vertex list (rg.py lines 178-278, the path
with no keyword arguments): `num_edges` is half the sum of the valences
(Python integer division), `num_vertices` the length of the vertex list,
`numbering` is `None`, and the adjacency list is built by scanning the
vertices in order and appending the current vertex index to the bucket of
every incident edge (rg.py lines 263-272). -/
def mkGraph (vs : List (List ℤ)) : Graph :=
  let E := (vs.map List.length).sum / 2
  let buckets := (List.range E).map (fun c =>
    vs.enum.bind (fun iv =>
      iv.2.filterMap (fun x => if x == (c : ℤ) then some iv.1 else none)))
  { vertices := vs
    numbering := none
    num_edges := E
    num_external_edges := 0
    num_vertices := vs.length
    endpoints := buckets.map (fun l => (l.get? 0, l.get? 1)) }

/-- All edge colorings of the graph, in vertex order (the flattened vertex
list over which `Graph._ok` counts edge occurrences, rg.py lines 308-321). -/
def flatColors (G : Graph) : List ℤ :=
  G.vertices.join

/-- `Graph._ok` (rg.py lines 280-322) as a boolean: positive edge count;
every internal endpoints entry is a pair of in-range vertex indices whose
vertices contain the edge; every external entry is `(v, None)` with the
external color `-X + k` present in vertex `v`; and the occurrence-count array
`cnt` (indexed with Python semantics, so a negative color `x` lands in slot
`E + X + x`) holds exactly 2 for internal and exactly 1 for external slots.
A color outside `[-(E+X), E+X)` would raise `IndexError` in Python, which is
embedded as the check failing. -/
def okB (G : Graph) : Bool :=
  let E := G.num_edges
  let X := G.num_external_edges
  decide (0 < E) &&
  ((G.endpoints.take E).enum.all (fun cep =>
    match cep.2 with
    | (some a, some b) =>
        decide (a < G.num_vertices) && decide (b < G.num_vertices) &&
        (G.vertices.getD a []).contains (cep.1 : ℤ) &&
        (G.vertices.getD b []).contains (cep.1 : ℤ)
    | _ => false)) &&
  ((G.endpoints.drop E).enum.all (fun kep =>
    match kep.2 with
    | (some a, none) =>
        decide (a < G.num_vertices) &&
        (G.vertices.getD a []).contains (-(X : ℤ) + kep.1)
    | _ => false)) &&
  ((flatColors G).all (fun x => decide (-((E + X : ℕ) : ℤ) ≤ x) && decide (x < ((E + X : ℕ) : ℤ)))) &&
  ((List.range (E + X)).all (fun s =>
    let cnt := (flatColors G).count (s : ℤ) + (flatColors G).count ((s : ℤ) - ((E + X : ℕ) : ℤ))
    if s < E then cnt == 2 else cnt == 1))

/-- Structural facts guaranteed by the `Graph` constructor for every object
the program builds (rg.py lines 178-278): `num_vertices` is the length of the
vertex list (its default value, never overridden by the callers in the
sources), the adjacency list has one entry per internal and external edge,
and every color lies in `[-X, E)` (asserted for the default-endpoints path at
rg.py line 269, and true of the `Tree`-built graphs which label external
edges `-1, ..., -X`).  Used as the standing well-formedness hypothesis. -/
def graphWF (G : Graph) : Bool :=
  okB G &&
  (G.num_vertices == G.vertices.length) &&
  (G.endpoints.length == G.num_edges + G.num_external_edges) &&
  ((flatColors G).all (fun x =>
    decide (-(G.num_external_edges : ℤ) ≤ x) && decide (x < (G.num_edges : ℤ))))

/-- Endpoint pair of an internal edge color (both components present for a
valid internal edge; the fallback is never reached on valid graphs). -/
def epPair (G : Graph) (c : ℤ) : ℕ × ℕ :=
  match G.endpoints.getD c.toNat (none, none) with
  | (some a, some b) => (a, b)
  | _ => (0, 0)

/-- Python `list.index(x)`: index of the first occurrence. -/
def indexOf (v : List ℤ) (c : ℤ) : ℕ :=
  v.findIdx (fun x => x == c)

/-- Python `list.index(x, start)`: index of the first occurrence at or after
`start`. -/
def indexOfFrom (v : List ℤ) (c : ℤ) (start : ℕ) : ℕ :=
  start + (v.drop start).findIdx (fun x => x == c)

/-- Pass 1 of `Graph.boundary_components` (rg.py lines 491-522): for the
half-edge at position `pi` of vertex `vi` carrying color `c`, locate the
other occurrence of the edge (at the other endpoint vertex, or at this very
vertex for a loop, disambiguating first/second occurrence), then step to the
next position in that vertex's cyclic order.  Returns the triple
`(other_end, successor position, edge)`. -/
def pass1entry (G : Graph) (vi pi : ℕ) (c : ℤ) : ℕ × ℕ × ℤ :=
  let p := epPair G c
  let vertex := G.vertices.getD vi []
  let other_end := if p.1 ≠ p.2 then (if p.1 = vi then p.2 else p.1) else p.1
  let other_index0 :=
    if p.1 ≠ p.2 then indexOf (G.vertices.getD other_end []) c
    else
      let oi := indexOf vertex c
      if oi = pi then indexOfFrom vertex c (pi + 1) else oi
  let olen := (G.vertices.getD other_end []).length
  let other_index := if other_index0 = olen - 1 then 0 else other_index0 + 1
  (other_end, other_index, c)

/-- Index in the flattened half-edge list where vertex `v` starts (the `vi`
offsets of rg.py lines 531-534). -/
def vertexBase (G : Graph) (v : ℕ) : ℕ :=
  ((G.vertices.take v).map List.length).sum

/-- Pass 2 of `Graph.boundary_components` (rg.py lines 524-538): the linear
list with one entry per half-edge, holding the flat index of the successor
half-edge and the edge color (the `seen` flag is carried separately by the
walk below). -/
def pass2 (G : Graph) : List (ℕ × ℤ) :=
  G.vertices.enum.bind (fun iv =>
    iv.2.enum.map (fun pc =>
      let t := pass1entry G iv.1 pc.1 pc.2
      (vertexBase G t.1 + t.2.1, t.2.2)))

/-- The inner walk of pass 3 (rg.py lines 550-556): follow successor links
from `i`, collecting edge colors and marking entries as seen, until an
already-seen entry is reached.  Each step marks one new entry, so fuel
`arr.length` suffices. -/
def walkB (arr : List (ℕ × ℤ)) : ℕ → List Bool → ℕ → (List ℤ × List Bool)
  | 0, vis, _ => ([], vis)
  | fuel + 1, vis, i =>
      if vis.getD i true then ([], vis)
      else
        let e := arr.getD i (0, 0)
        let r := walkB arr fuel (vis.set i true) e.1
        (e.2 :: r.1, r.2)

/-- The outer loop of pass 3 (rg.py lines 540-557): scan positions in order,
starting a new boundary component at every not-yet-seen half-edge. -/
def pass3go (arr : List (ℕ × ℤ)) : ℕ → List Bool → ℕ → List (List ℤ)
  | 0, _, _ => []
  | fuel + 1, vis, pos =>
      if pos < arr.length then
        if vis.getD pos true then pass3go arr fuel vis (pos + 1)
        else
          let w := walkB arr arr.length vis pos
          w.1 :: pass3go arr fuel w.2 (pos + 1)
      else []

/-- The boundary walks of the graph, in the order traced by
`Graph.boundary_components` (each walk is one face of the ribbon structure,
as a linear list of edge colors; rg.py lines 540-557). -/
def boundaryWalks (G : Graph) : List (List ℤ) :=
  let arr := pass2 G
  pass3go arr arr.length (List.replicate arr.length false) 0

/-- Insertion into a Python `set` of `CyclicTuple`s: a walk is added only if
no already-present walk is equal to it up to rotation. -/
def dedupCyclic (l : List (List ℤ)) : List (List ℤ) :=
  l.foldl (fun acc c => if acc.any (fun d => cyclicEqB d c) then acc else acc ++ [c]) []

/-- `Graph.boundary_components` (rg.py lines 461-563): the set of boundary
cycles, i.e. the traced walks deduplicated up to rotation (the Python code
returns `set(CyclicTuple(bc) for bc in result)`). -/
def boundary_components (G : Graph) : List (List ℤ) :=
  dedupCyclic (boundaryWalks G)

/-- `Graph.num_boundary_components` (rg.py lines 1068-1084): the size of the
boundary-component set. -/
def num_boundary_components (G : Graph) : ℕ :=
  (boundary_components G).length

/-- `Graph.genus` (rg.py lines 720-729): `(L - K - n + 2) / 2` with Python-2
integer (floor) division. -/
def genus (G : Graph) : ℤ :=
  ((G.num_edges : ℤ) - (G.num_vertices : ℤ) - (num_boundary_components G : ℤ) + 2).fdiv 2

end FatGHoL

namespace FatGHoL

/-- Modelled from the spec: the edge-renumbering mapping of `Graph.contract`
(rg.py lines 627-637, using `utils.itranslate`, whose encoding is documented
at those lines and in spec section 4.2): the contracted color `edgeno` is
deleted, colors `edgeno+1 .. num_edges` are shifted down by one, all other
colors (including the negative external ones) pass through unchanged. -/
def itranslateE (edgeno E : ℕ) (x : ℤ) : Option ℤ :=
  if x = (edgeno : ℤ) then none
  else if (edgeno : ℤ) + 1 ≤ x ∧ x ≤ (E : ℤ) then some (x - 1)
  else some x

/-- The vertex-renumbering mapping of `Graph.contract` (rg.py lines 664-668):
vertex `i2` is mapped to `i1`, vertices above `i2` are shifted down by one,
the rest pass through. -/
def rvTranslate (i1 i2 V : ℕ) (i : ℕ) : ℕ :=
  if i = i2 then i1
  else if i2 + 1 ≤ i ∧ i ≤ V then i - 1
  else i

/-- `Graph.contract` (rg.py lines 565-714), on a freshly built graph (no
cached contraction, no cached boundary components).  The three leading
assertions become `Except.error`s, as does an out-of-range adjacency lookup
(`IndexError`) and a failure of the constructor's `_ok` check on the newly
built graph.  The body: delete the contracted color and shift the ones above
it down, rotate the two endpoint vertices so the contracted edge sits last
in `v1` / first in `v2`, splice `v2` onto `v1`, drop vertex `i2`, renumber
vertices and edges in the adjacency list, and translate the numbering keys
by the same edge renumbering. -/
def contract (G : Graph) (edgeno : ℕ) : Except String Graph :=
  if h : edgeno < G.endpoints.length then
    let ep := G.endpoints.get ⟨edgeno, h⟩
    if ep.1 = ep.2 then
      .error "Graph.contract: cannot contract a loop."
    else if ep.1 = none ∨ ep.2 = none then
      .error "Graph.contract: cannot contract an external edge."
    else if edgeno < G.num_edges then
      let a := ep.1.getD 0
      let b := ep.2.getD 0
      let i1 := min a b
      let i2 := max a b
      let pos1 := indexOf (G.vertices.getD i1 []) (edgeno : ℤ)
      let pos2 := indexOf (G.vertices.getD i2 []) (edgeno : ℤ)
      let ren := itranslateE edgeno G.num_edges
      let new_vertices0 := G.vertices.map (fun v => v.filterMap ren)
      let v1 := new_vertices0.getD i1 []
      let v2 := new_vertices0.getD i2 []
      let v1r := if 0 < pos1 ∧ pos1 < v1.length then rotate pos1 v1 else v1
      let v2r := if 0 < pos2 ∧ pos2 < v2.length then rotate pos2 v2 else v2
      let rv := rvTranslate i1 i2 G.num_vertices
      let new_vertices := ((new_vertices0.set i1 (v1r ++ v2r)).eraseIdx i2)
      let new_endpoints := (G.endpoints.map (fun p => (p.1.map rv, p.2.map rv))).eraseIdx edgeno
      let Gc : Graph :=
        { vertices := new_vertices
          numbering := G.numbering.map (fun nb => nb.map (fun kn => (kn.1.filterMap ren, kn.2)))
          num_edges := G.num_edges - 1
          num_external_edges := G.num_external_edges
          num_vertices := new_vertices.length
          endpoints := new_endpoints }
      if okB Gc then .ok Gc
      else .error "Graph.__init__: assertion failed (_ok)"
    else
      .error "Graph.contract: invalid edge number"
  else
    .error "IndexError: list index out of range"

end FatGHoL

namespace FatGHoL

/-- Modelled from the spec: the sparse integer matrix of the missing
`simplematrix.py` (spec section 6: the rank oracle consumes "a sparse
rational/integer matrix").  Only the dimensions are inspected by the
homology code; the exact rank is an external oracle. -/
structure SimpleMatrix where
  num_rows : ℕ
  num_columns : ℕ
  entries : List (ℕ × ℕ × ℤ)
deriving DecidableEq, Repr

/-- The default entry used for out-of-range lookups in a differential
complex (never reached under the theorems' hypotheses). -/
def dcDefault : SimpleMatrix × ℕ × ℕ :=
  (⟨0, 0, []⟩, 0, 0)

/-- `DifferentialComplex.compute_homology_ranks` (homology.py lines 150-219),
with the external exact-rank oracle passed as the function `rank` and the
checkpoint store disabled (the `checkpoint = None` branch taken when
`runtime.options` is absent, homology.py lines 176-178).  An element of the
complex is a triple `(A, ddim, cdim)` as stored by
`DifferentialComplex.append`.  The ranks list holds, per element, the oracle
rank when both dimensions are positive and `0` immediately otherwise
(homology.py lines 179-199, "LinBox segfaults if asked to compute the rank
of a 0xL matrix"); then `domain_dim` is the list of `ddim`s with the last
element's `cdim` appended, the ranks list is augmented with a trailing `0`
(the null map), and entry `i` of the result is
`domain_dim[i+1] - ranks[i] - ranks[i+1]` (homology.py lines 201-219).
On an empty complex Python would raise `IndexError` at `self[-1]`; the
embedding is total and the theorems assume a non-empty complex. -/
def compute_homology_ranks (rank : SimpleMatrix → ℕ)
    (cplx : List (SimpleMatrix × ℕ × ℕ)) : List ℤ :=
  let ranks : List ℤ :=
    cplx.map (fun e =>
      if 0 < e.1.num_rows ∧ 0 < e.1.num_columns then (rank e.1 : ℤ) else 0) ++ [0]
  let domain_dim : List ℤ :=
    cplx.map (fun e => (e.2.1 : ℤ)) ++
      [(cplx.getLast?.elim 0 (fun e => (e.2.2 : ℤ)))]
  (List.range cplx.length).map (fun i =>
    domain_dim.getD (i + 1) 0 - ranks.getD i 0 - ranks.getD (i + 1) 0)

/-- The rank the homology code actually uses for the `i`-th stored
differential: the oracle's answer when both dimensions are positive, `0`
immediately otherwise, and `0` beyond the end of the complex (the trailing
null map, and Python's `ranks[i]` guard semantics). -/
def guardedRank (rank : SimpleMatrix → ℕ)
    (cplx : List (SimpleMatrix × ℕ × ℕ)) (i : ℕ) : ℤ :=
  if i < cplx.length then
    let e := cplx.getD i dcDefault
    if 0 < e.1.num_rows ∧ 0 < e.1.num_columns then (rank e.1 : ℤ) else 0
  else 0

/-- The dimension of the graded module `C[i]` as recorded in the complex:
the `ddim` stored with entry `i+1` (by `ChainComplex.compute_boundary_operators`,
homology.py lines 312-339, entry `j` stores `(D[j], dim C[j-1], dim C[j])`),
and for the top degree the `cdim` of the last entry. -/
def dimCOf (cplx : List (SimpleMatrix × ℕ × ℕ)) (i : ℕ) : ℤ :=
  if i + 1 < cplx.length then ((cplx.getD (i + 1) dcDefault).2.1 : ℤ)
  else cplx.getLast?.elim 0 (fun e => (e.2.2 : ℤ))

/-- The loop of `Graph.is_canonical` (rg.py lines 807-814): `prev` is the
`previous_vertex` variable (`none` before the first iteration).  Each vertex
must be a canonical representative; then, when the previous vertex is truthy
(present *and* non-empty: Python's `if previous_vertex and (previous_vertex
< vertex)` skips the comparison when `previous_vertex` is the falsy empty
list), the previous vertex must not be strictly smaller than the current one
under the `Vertex.__cmp__` order (`vertexCmp`; the missing `cyclicseq` base
class declares no ordering of its own, so the vertex comparison declared in
rg.py lines 56-85 is the one embedded). -/
def isCanonicalGo : Option (List ℤ) → List (List ℤ) → Bool
  | _, [] => true
  | none, v :: rest =>
      if ¬ is_canonical_representative v then false
      else isCanonicalGo (some v) rest
  | some p, v :: rest =>
      if ¬ is_canonical_representative v then false
      else if !p.isEmpty && decide (vertexCmp p v = .lt) then false
      else isCanonicalGo (some v) rest

/-- `Graph.is_canonical` (rg.py lines 789-814). -/
def is_canonical (G : Graph) : Bool :=
  isCanonicalGo none G.vertices

/-- Association-list lookup for the edge permutation `pe` (a
`combinatorics.Permutation`, i.e. a Python dict from source to destination
edge colors; modelled from the spec). -/
def peLookup (pe : List (ℤ × ℤ)) (x : ℤ) : Option ℤ :=
  (pe.find? (fun p => p.1 == x)).map (fun p => p.2)

/-- Modelled from the spec: one binding step of `Permutation.extend` from the
missing combinatorics module (spec section 4.3 step 3): adding the pair
`a ↦ b` fails when `a` is already mapped elsewhere, or when some other source
is already mapped to `b` (two different source edges forced to the same
destination edge). -/
def peInsert (pe : List (ℤ × ℤ)) (a b : ℤ) : Option (List (ℤ × ℤ)) :=
  match peLookup pe a with
  | some b' => if b' = b then some pe else none
  | none =>
      if pe.any (fun p => p.2 == b) then none
      else some (pe ++ [(a, b)])

/-- Modelled from the spec: `Permutation.extend(srcseq, dstseq)` (rg.py line
1030), binding the paired-up source/destination colors one by one. -/
def peExtend (pe : List (ℤ × ℤ)) : List (ℤ × ℤ) → Option (List (ℤ × ℤ))
  | [] => some pe
  | p :: rest =>
      match peInsert pe p.1 p.2 with
      | none => none
      | some pe2 => peExtend pe2 rest

/-- The per-candidate edge-permutation construction of
`Graph.isomorphisms_to` (rg.py lines 1025-1034): for each vertex index `j`
of `G`, the window `v1[s_j : s_j + len(v1)]` (a cyclic slice, i.e.
`rotate s_j v1`) is mapped linearly onto the target vertex
`H.vertices[pv[j]]`.  The repetition-pattern machinery of the missing
`cyclicseq` module only serves to skip shifts that cannot work (spec section
4.3 step 2, and the FIXME at rg.py lines 999-1002 noting it could be
replaced by trying all rotations); it is modelled by the brute-force shift
choice with base offsets `b1 = b2 = 0`, so the recorded rotation amount
`t[1] - t[3]` is the shift itself. -/
def buildPeAux (G H : Graph) (pv shifts : List ℕ) :
    List ℕ → List (ℤ × ℤ) → Option (List (ℤ × ℤ))
  | [], pe => some pe
  | j :: rest, pe =>
      let v1 := G.vertices.getD j []
      let v2 := H.vertices.getD (pv.getD j 0) []
      let s := shifts.getD j 0
      match peExtend pe ((rotate s v1).zip v2) with
      | none => none
      | some pe2 => buildPeAux G H pv shifts rest pe2

/-- The edge permutation induced by vertex map `pv` and rotation amounts
`shifts`, if consistent. -/
def buildPe (G H : Graph) (pv shifts : List ℕ) : Option (List (ℤ × ℤ)) :=
  buildPeAux G H pv shifts (List.range G.vertices.length) []

/-- Python `set(...)` equality for an endpoint pair (rg.py lines 1043-1048
make `set`s of the two endpoint pairs for unordered comparison). -/
def upairEq (p q : Option ℕ × Option ℕ) : Bool :=
  (p.1 == q.1 && p.2 == q.2) || (p.1 == q.2 && p.2 == q.1)

/-- `pv.itranslate` on an endpoints pair (rg.py line 1047): translate each
vertex index through the vertex permutation, passing `None` (and indices
outside the mapping) through unchanged. -/
def translatePv (pv : List ℕ) (p : Option ℕ × Option ℕ) : Option ℕ × Option ℕ :=
  (p.1.map (fun i => pv.getD i i), p.2.map (fun i => pv.getD i i))

/-- The adjacency-preservation test of `Graph.isomorphisms_to` (rg.py lines
1037-1049): the list `[set(other.endpoints[pe[x]]) for x in
xrange(other.num_edges)]` is compared against `[set(pv.itranslate(
self.endpoints[x])) for x in xrange(self.num_edges)]`; lists of different
lengths compare unequal, and a color missing from `pe` (a `KeyError` in
Python) is embedded as the test failing. -/
def adjacencyOk (G H : Graph) (pv : List ℕ) (pe : List (ℤ × ℤ)) : Bool :=
  (H.num_edges == G.num_edges) &&
  (List.range G.num_edges).all (fun x =>
    match peLookup pe (x : ℤ) with
    | none => false
    | some y =>
        decide (0 ≤ y) &&
        upairEq (H.endpoints.getD y.toNat (none, none))
          (translatePv pv (G.endpoints.getD x (none, none))))

/-- Lookup in a boundary-cycle numbering: Python dicts keyed by
`CyclicTuple`s compare keys by cyclic equality. -/
def numberingLookup (nb : List (List ℤ × ℕ)) (k : List ℤ) : Option ℕ :=
  (nb.find? (fun p => cyclicEqB p.1 k)).map (fun p => p.2)

/-- `CyclicTuple(pe.itranslate(bc))` (rg.py line 1060): translate every edge
color of a boundary cycle through `pe`, passing unmapped colors through. -/
def translateTuple (pe : List (ℤ × ℤ)) (t : List ℤ) : List ℤ :=
  t.map (fun x => (peLookup pe x).getD x)

/-- The numbering-preservation test of `Graph.isomorphisms_to` (rg.py lines
1050-1064): nothing is checked when `G` carries no numbering; when `G` is
numbered but `H` is not, the Python assertion at line 1051 aborts the
iteration before anything is yielded (embedded as the candidate failing);
otherwise every boundary cycle of `G` must keep its label when translated
through `pe` (a missing dict key — Python `KeyError` — is embedded as the
candidate failing). -/
def numberingOk (G H : Graph) (pe : List (ℤ × ℤ)) : Bool :=
  match G.numbering with
  | none => true
  | some nbG =>
      match H.numbering with
      | none => false
      | some nbH =>
          (boundary_components G).all (fun bc =>
            match numberingLookup nbG bc, numberingLookup nbH (translateTuple pe bc) with
            | some n1, some n2 => n1 == n2
            | _, _ => false)

/-- The sorted tuple `Graph._vertex_valences` (rg.py lines 200-201): the
vertex valences in non-decreasing order. -/
def vertexValences (G : Graph) : List ℕ :=
  (G.vertices.map List.length).insertionSort (· ≤ ·)

/-- Modelled from the spec: the candidate vertex permutations of
`Graph.isomorphisms_to` (rg.py lines 958-995, using the missing
`InplacePermutationIterator` / `SetProductIterator` / `Permutation`
classes).  Enumerating, bucket by bucket, all permutations within each
valence class and recombining them (spec section 4.3 step 1) produces
exactly the permutations of the vertex indices under which every vertex is
mapped to a vertex of equal valence; the embedding enumerates those
directly.  `pv` is the image list: vertex `j` of `G` is sent to vertex
`pv[j]` of `H`. -/
def insertEverywhere (x : ℕ) : List ℕ → List (List ℕ)
  | [] => [[x]]
  | y :: ys => (x :: y :: ys) :: (insertEverywhere x ys).map (fun zs => y :: zs)

/-- Modelled from the spec: all permutations of a list
(`InplacePermutationIterator` of the missing combinatorics module). -/
def permsOf : List ℕ → List (List ℕ)
  | [] => [[]]
  | x :: xs => (permsOf xs).flatMap (insertEverywhere x)

def candidatePvs (G H : Graph) : List (List ℕ) :=
  (permsOf (List.range G.vertices.length)).filter (fun p =>
    (List.range G.vertices.length).all (fun j =>
      (G.vertices.getD j []).length == (H.vertices.getD (p.getD j 0) []).length))

/-- Modelled from the spec: `SetProductIterator` (the Cartesian product of a
list of lists, spec section 4.3 step 3). -/
def listProd : List (List ℕ) → List (List ℕ)
  | [] => [[]]
  | l :: ls => l.flatMap (fun x => (listProd ls).map (fun rest => x :: rest))

/-- All per-vertex rotation-shift vectors (one shift in `0 .. len(v)-1` per
vertex of `G`); the repetition-pattern pruning is modelled by the full
brute-force range (cf. `buildPeAux`). -/
def shiftVectors (G : Graph) : List (List ℕ) :=
  listProd (G.vertices.map (fun v => List.range v.length))

/-- Processing of one candidate `(pv, shifts)` pair of
`Graph.isomorphisms_to` (rg.py lines 1024-1066): build the edge permutation
(consistency and injectivity), require it non-empty (`len(pe) > 0`, line
1035), check adjacency preservation and numbering preservation, and yield
`(pv, rots, pe)` with `rots` the per-vertex shifts. -/
def acceptCandidate (G H : Graph) (pv shifts : List ℕ) :
    Option (List ℕ × List ℕ × List (ℤ × ℤ)) :=
  match buildPe G H pv shifts with
  | none => none
  | some pe =>
      if pe.length > 0 then
        if adjacencyOk G H pv pe then
          if numberingOk G H pe then some (pv, shifts, pe) else none
        else none
      else none

/-- `Graph.isomorphisms_to` (rg.py lines 922-1066): the list of isomorphisms
the generator yields.  The two leading assertions (lines 968-976) require
the valence multisets of the two graphs to coincide; a failing assertion
aborts the generator before anything is yielded, embedded as the empty
list. -/
def isomorphisms_to (G H : Graph) : List (List ℕ × List ℕ × List (ℤ × ℤ)) :=
  if vertexValences G = vertexValences H then
    (candidatePvs G H).flatMap (fun pv =>
      (shiftVectors G).filterMap (fun shifts => acceptCandidate G H pv shifts))
  else []

/-- `Graph.automorphisms` (rg.py lines 452-458). -/
def automorphisms (G : Graph) : List (List ℕ × List ℕ × List (ℤ × ℤ)) :=
  isomorphisms_to G G

/-- Python dict equality for the optional boundary-cycle numbering (used by
the `Graph.__eq__` shortcut at rg.py line 410): both absent, or both present
with the same key-to-value mapping (keys compared cyclically). -/
def numberingDictEq (a b : Option (List (List ℤ × ℕ))) : Bool :=
  match a, b with
  | none, none => true
  | some na, some nb =>
      na.all (fun p => numberingLookup nb p.1 == some p.2) &&
      nb.all (fun p => numberingLookup na p.1 == some p.2)
  | _, _ => false

/-- Pointwise equality of the two vertex lists, each vertex compared as a
cyclic sequence (`self.vertices == other.vertices` at rg.py line 408 is a
Python list comparison whose elements are `Vertex` objects, i.e. cyclic
sequences of the missing `cyclicseq.CyclicList` class, equal up to
rotation). -/
def verticesEq (a b : List (List ℤ)) : Bool :=
  (a.length == b.length) && (a.zip b).all (fun p => cyclicEqB p.1 p.2)

/-- `Graph.__eq__` (rg.py lines 324-421): first the cheap shortcuts — a
difference in edge count, vertex count or sorted valence tuple gives
`False`; fully equal vertices, endpoints and numbering give `True` — and
otherwise the graphs are equal iff `isomorphisms_to` yields at least one
isomorphism.  (The Python shortcut compares `endpoints` entries as the
list-vs-tuple objects the two constructors produce; the embedding stores
both as pairs, which can only make the `True` shortcut fire more often, and
the main theorem shows the shortcut agrees with the isomorphism search.) -/
def graphEq (G H : Graph) : Bool :=
  if G.num_edges ≠ H.num_edges ∨ G.num_vertices ≠ H.num_vertices ∨
      vertexValences G ≠ vertexValences H then false
  else if verticesEq G.vertices H.vertices && (G.endpoints == H.endpoints) &&
      numberingDictEq G.numbering H.numbering then true
  else !(isomorphisms_to G H).isEmpty

/-- Modelled from the spec: `Permutation.sign` of the missing combinatorics
module ("the permutation's sign", spec section 3), as the parity of the
number of inversions of the image list. -/
def inversions (pv : List ℕ) : ℕ :=
  ((List.range pv.length).map (fun i =>
    ((List.range pv.length).filter (fun j =>
      i < j ∧ pv.getD i 0 > pv.getD j 0)).length)).sum

/-- Modelled from the spec: `Permutation.sign` as `(-1)^inversions`. -/
def permSign (pv : List ℕ) : ℤ :=
  if inversions pv % 2 == 0 then 1 else -1

/-- The `arrow` helper of `Graph.is_orientation_reversing` (rg.py lines
866-870): `-1` when the first endpoint compares greater than the second,
`+1` otherwise; Python 2 orders `None` below every integer. -/
def arrow (p : Option ℕ × Option ℕ) : ℤ :=
  match p with
  | (some a, some b) => if b < a then -1 else 1
  | (some _, none) => -1
  | (none, _) => 1

/-- `Graph.is_orientation_reversing` (rg.py lines 861-875, current
generation): starting from the sign of the vertex permutation, multiply by
`arrow(before) * arrow(after)` for every endpoints entry, where `after` is
the entry translated through `pv`; the automorphism's rotation amounts and
edge permutation are never consulted. -/
def is_orientation_reversing (G : Graph)
    (a : List ℕ × List ℕ × List (ℤ × ℤ)) : Bool :=
  let pv := a.1
  let result := G.endpoints.foldl
    (fun acc ep => acc * (arrow ep * arrow (translatePv pv ep))) (permSign pv)
  result == -1

/-- `sign_of_rotation` of the earlier generation (`src/rg.py` of the
repository, lines 364-370): the sign of a rotation of `l` elements applied
`r` times is `+1` iff `(l-1)*r` is even. -/
def sign_of_rotation (l r : ℕ) : ℤ :=
  if (l - 1) * r % 2 == 0 then 1 else -1

/-- One step of `sign_of_permutation` of the earlier generation (`src/rg.py`
lines 371-407): `q = p[j]`; if `q ≠ j`, interchange `p[j]` and `p[q]`
(i.e. `p[j], p[q] = p[q], q`) and flip the sign. -/
def signPermStep (state : List ℕ × ℤ) (j : ℕ) : List ℕ × ℤ :=
  let p := state.1
  let q := p.getD j 0
  if q ≠ j then ((p.set j (p.getD q 0)).set q q, -state.2) else state

/-- `sign_of_permutation` of the earlier generation (`src/rg.py` lines
371-407): count the interchanges needed to sort the permutation back to the
identity. -/
def sign_of_permutation (p : List ℕ) : ℤ :=
  ((List.range p.length).foldl signPermStep (p, 1)).2

/-- `Graph.is_orientation_reversing` of the earlier generation (`src/rg.py`
lines 362-415): the product of the permutation sign with one
`sign_of_rotation(l, r)` factor per vertex equals `-1`. -/
def is_orientation_reversing_old (G : Graph)
    (a : List ℕ × List ℕ × List (ℤ × ℤ)) : Bool :=
  (((G.vertices.map List.length).zip a.2.1).foldl
    (fun acc lr => acc * sign_of_rotation lr.1 lr.2)
    (sign_of_permutation a.1)) == -1

/-- The orientation sign the claim (and spec section 3) ascribes to an
automorphism `(pv, rots, pe)`: the product of the sign of the vertex
permutation with one factor per vertex, the factor for a vertex of valence
`l` rotated `r` places being `+1` iff `(l-1)*r` is even. -/
def claimOrientationSign (G : Graph)
    (a : List ℕ × List ℕ × List (ℤ × ℤ)) : ℤ :=
  permSign a.1 *
    (((G.vertices.map List.length).zip a.2.1).map
      (fun lr => sign_of_rotation lr.1 lr.2)).prod

/-- Well-formedness of an optional numbering: when present, every boundary
cycle of the graph has a label (`MakeNumberedGraphs`, rg.py lines 1186-1205,
labels exactly the boundary cycles). -/
def numberingWF (G : Graph) : Bool :=
  match G.numbering with
  | none => true
  | some nb =>
      (boundary_components G).all (fun bc => (numberingLookup nb bc).isSome)

/-- The two-entry complex of the "chain homology of a segment" doctest
(homology.py lines 360-366): the null map `D[0]` as a `0x0` matrix with
`dim C[0] = 2`, and a `2x1` matrix `D[1]` with `dim C[1] = 1`. -/
def segComplex : List (SimpleMatrix × ℕ × ℕ) :=
  [(⟨0, 0, []⟩, 0, 2), (⟨2, 1, [(0, 0, 1), (1, 0, -1)]⟩, 2, 1)]

/-- The argument checks of `MgnGraphsIterator.__init__` (rg.py lines
1584-1593): the two leading assertions `n > 0` and `g > 0 or (g == 0 and
n >= 3)`, evaluated before any enumeration work is attempted (they are the
first statements of the constructor). -/
def MgnGraphsIterator_precondition (g n : ℕ) : Bool :=
  decide (0 < n) && (decide (0 < g) || (g == 0 && decide (3 ≤ n)))

/-- The endpoint pairs of every constructor-built graph are in
non-decreasing order: the scan of rg.py lines 263-272 appends the lower
vertex index first.  Used as a hypothesis of the amended orientation
theorem. -/
def sortedEndpoints (G : Graph) : Bool :=
  G.endpoints.all (fun ep =>
    match ep with
    | (some a, some b) => decide (a ≤ b)
    | _ => false)

/-- The first rotation amount aligning `v` with `w` (a helper for exhibiting
a concrete isomorphism witness). -/
def pickShift (v w : List ℤ) : ℕ :=
  ((List.range v.length).find? (fun s => rotate s v == w)).getD 0

/-- Everything in the edge permutation is a self-mapping. -/
def DiagPe (pe : List (ℤ × ℤ)) : Prop :=
  ∀ p ∈ pe, p.1 = p.2

/-- The vertex list built by `Graph.contract` (rg.py lines 639-676) once the
endpoint indices `i1 < i2` of the contracted edge are known: renumber the
colors in every vertex, rotate the two endpoint vertices so the contracted
edge sits last in the first and first in the second, splice them, drop
vertex `i2`. -/
def contractedVertices (G : Graph) (e i1 i2 : ℕ) : List (List ℤ) :=
  let pos1 := indexOf (G.vertices.getD i1 []) (e : ℤ)
  let pos2 := indexOf (G.vertices.getD i2 []) (e : ℤ)
  let ren := itranslateE e G.num_edges
  let new_vertices0 := G.vertices.map (fun v => v.filterMap ren)
  let v1 := new_vertices0.getD i1 []
  let v2 := new_vertices0.getD i2 []
  let v1r := if 0 < pos1 ∧ pos1 < v1.length then rotate pos1 v1 else v1
  let v2r := if 0 < pos2 ∧ pos2 < v2.length then rotate pos2 v2 else v2
  (new_vertices0.set i1 (v1r ++ v2r)).eraseIdx i2

/-- The adjacency list built by `Graph.contract` (rg.py lines 678-688):
renumber both endpoint vertices of every edge and delete the contracted
edge's entry. -/
def contractedEndpoints (G : Graph) (e i1 i2 : ℕ) : List (Option ℕ × Option ℕ) :=
  let rv := rvTranslate i1 i2 G.num_vertices
  (G.endpoints.map (fun p => (p.1.map rv, p.2.map rv))).eraseIdx e

/-- The graph assembled by `Graph.contract` for an internal non-loop edge
`e` with endpoint vertices `a ≠ b` (rg.py lines 690-714). -/
def contractedGraph (G : Graph) (e a b : ℕ) : Graph :=
  { vertices := contractedVertices G e (min a b) (max a b)
    numbering := G.numbering.map (fun nb => nb.map (fun kn =>
      (kn.1.filterMap (itranslateE e G.num_edges), kn.2)))
    num_edges := G.num_edges - 1
    num_external_edges := G.num_external_edges
    num_vertices := (contractedVertices G e (min a b) (max a b)).length
    endpoints := contractedEndpoints G e (min a b) (max a b) }

end FatGHoL


deriving instance DecidableEq for Except

-- ===================== THEOREMS =====================

namespace FatGHoL

/-- C1. The claim asserts that for every `Graph` built from a valid vertex
list (each edge color occurring exactly twice) with `E` edges, `V` vertices
and `n = num_boundary_components()`, the value `g` returned by `genus()` is
non-negative and satisfies `V - E + n = 2 - 2g`.  The code violates this:
for `Graph([Vertex([0,0])])` (one vertex, one loop) the two traced boundary
walks are both the cyclic tuple `(0,)`, the `set()` of boundary components
collapses them to a single element, so `n = 1`, and the floor division gives
`genus() = 0`; then `V - E + n = 1` while `2 - 2g = 2`.  This contradicts the
code's own derivation comment `# by Euler, K-L+n=2-2*g` (rg.py line 727). -/
theorem C1_euler_formula_violation :
    okB (mkGraph [[0, 0]]) = true ∧
    graphWF (mkGraph [[0, 0]]) = true ∧
    boundaryWalks (mkGraph [[0, 0]]) = [[0], [0]] ∧
    num_boundary_components (mkGraph [[0, 0]]) = 1 ∧
    genus (mkGraph [[0, 0]]) = 0 ∧
    ((mkGraph [[0, 0]]).num_vertices : ℤ) - ((mkGraph [[0, 0]]).num_edges : ℤ) +
        (num_boundary_components (mkGraph [[0, 0]]) : ℤ) ≠
      2 - 2 * genus (mkGraph [[0, 0]]) := by
  decide

/-- C3. The claim asserts that `Vertex.make_canonical` is idempotent and
always produces a sequence satisfying `is_canonical_representative`.  The
code violates this at `Vertex([0,2,1])`: each candidate rotation is compared
against rotation 0 instead of the best rotation found so far, so the final
rotation amount is the *last* rotation beating the original (here `r = 2`,
giving `[1,0,2]`) rather than the maximal one (`r = 1`, giving `[2,1,0]`).
The result `[1,0,2]` is not a canonical representative, and a second
application moves to `[2,1,0]`, so the map is not idempotent either —
contradicting the method's own docstring ("Alter `Vertex` *in place* so that
it is represented by a canonical sequence", rg.py lines 120-129). -/
theorem C3_make_canonical_failure :
    make_canonical [0, 2, 1] = [1, 0, 2] ∧
    is_canonical_representative (make_canonical [0, 2, 1]) = false ∧
    make_canonical (make_canonical [0, 2, 1]) = [2, 1, 0] ∧
    make_canonical (make_canonical [0, 2, 1]) ≠ make_canonical [0, 2, 1] ∧
    is_canonical_representative [2, 1, 0] = true := by
  decide

/-- C5. The claim asserts that contracting a non-loop internal edge yields a
graph with one edge and one vertex fewer (true here) *and* preserves the
genus and the number of boundary cycles computed independently from the
contracted graph's own vertex structure.  The code violates the
boundary-count part: the triangle graph `Graph([Vertex([0,1]), Vertex([1,2]),
Vertex([2,0])])` has two boundary cycles `(0,2,1)` and `(1,2,0)`; contracting
the non-loop edge `2` gives the bigon `Graph([Vertex([0,1]), Vertex([1,0])])`
whose two traced walks `(0,1)` and `(1,0)` are equal up to rotation and
collapse in the boundary-component `set()`, so the contracted graph reports
only 1 boundary cycle. -/
theorem C5_contract_boundary_count_violation :
    okB (mkGraph [[0, 1], [1, 2], [2, 0]]) = true ∧
    graphWF (mkGraph [[0, 1], [1, 2], [2, 0]]) = true ∧
    (mkGraph [[0, 1], [1, 2], [2, 0]]).endpoints.getD 2 (none, none) = (some 1, some 2) ∧
    num_boundary_components (mkGraph [[0, 1], [1, 2], [2, 0]]) = 2 ∧
    genus (mkGraph [[0, 1], [1, 2], [2, 0]]) = 0 ∧
    (contract (mkGraph [[0, 1], [1, 2], [2, 0]]) 2).map
        (fun g => (g.num_edges, g.num_vertices, num_boundary_components g, genus g)) =
      .ok (2, 2, 1, 0) := by
  decide

/-- C10. `MgnGraphsIterator.__init__` (rg.py lines 1584-1593) accepts the
pair `(g, n)` exactly when `n > 0` and either `g > 0` or `n ≥ 3` (for
natural-number arguments the code's `g == 0 and n >= 3` disjunct is
equivalent to `n ≥ 3` under the first disjunct's failure); in particular
every `(g, 0)` as well as `(0, 1)` and `(0, 2)` are rejected by these two
leading assertions, which run before any enumeration work. -/
theorem C10_mgn_iterator_precondition :
    (∀ g n : ℕ, MgnGraphsIterator_precondition g n = true ↔ (0 < n ∧ (0 < g ∨ 3 ≤ n))) ∧
    (∀ g : ℕ, MgnGraphsIterator_precondition g 0 = false) ∧
    MgnGraphsIterator_precondition 0 1 = false ∧
    MgnGraphsIterator_precondition 0 2 = false := by
  refine ⟨fun g n => ?_, fun g => ?_, by decide, by decide⟩
  · simp only [MgnGraphsIterator_precondition, Bool.and_eq_true, Bool.or_eq_true,
      decide_eq_true_eq, beq_iff_eq]
    constructor
    · rintro ⟨hn, hg | ⟨hg0, hn3⟩⟩
      · exact ⟨hn, Or.inl hg⟩
      · exact ⟨hn, Or.inr hn3⟩
    · rintro ⟨hn, hg | hn3⟩
      · exact ⟨hn, Or.inl hg⟩
      · refine ⟨hn, ?_⟩
        rcases Nat.eq_zero_or_pos g with h0 | hpos
        · exact Or.inr ⟨h0, hn3⟩
        · exact Or.inl hpos
  · simp [MgnGraphsIterator_precondition]

/-- C2. `DifferentialComplex.compute_homology_ranks` (homology.py lines
150-219) returns, for a non-empty complex of stored triples `(A, ddim, cdim)`,
the list whose `i`-th entry is `dim C[i] - rank(D[i]) - rank(D[i+1])`: here
`dim C[i]` is `dimCOf` (the `ddim` stored with entry `i+1`, resp. the last
entry's `cdim` at the top degree, matching the layout produced by
`ChainComplex.compute_boundary_operators`, homology.py lines 312-339, whose
entry `0` is the null map `D[0]` with a `0×0` matrix) and `rank(D[i])` is
`guardedRank`: the external oracle's answer when both dimensions are
positive, and `0` immediately — without consulting the oracle — when either
dimension is zero, with `rank(D[L+1]) = 0` for the appended null map.  The
second conjunct states the non-invocation precisely: the result only depends
on the oracle's values at matrices with both dimensions positive. -/
theorem C2_compute_homology_ranks
    (rank : SimpleMatrix → ℕ) (cplx : List (SimpleMatrix × ℕ × ℕ))
    (_hne : cplx ≠ []) :
    ((compute_homology_ranks rank cplx).length = cplx.length ∧
      ∀ i, i < cplx.length →
        (compute_homology_ranks rank cplx).getD i 0 =
          dimCOf cplx i - guardedRank rank cplx i - guardedRank rank cplx (i + 1)) ∧
    (∀ rank2 : SimpleMatrix → ℕ,
        (∀ A, 0 < A.num_rows → 0 < A.num_columns → rank2 A = rank A) →
        compute_homology_ranks rank2 cplx = compute_homology_ranks rank cplx) := by
  set rk : (SimpleMatrix × ℕ × ℕ) → ℤ := fun e =>
    if 0 < e.1.num_rows ∧ 0 < e.1.num_columns then (rank e.1 : ℤ) else 0 with hrk
  set dd : (SimpleMatrix × ℕ × ℕ) → ℤ := fun e => (e.2.1 : ℤ) with hdd
  have hrank_eq : ∀ i, (cplx.map rk ++ [0]).getD i 0 = guardedRank rank cplx i := by
    intro i
    rcases Nat.lt_trichotomy i cplx.length with hlt | heq | hgt
    · rw [List.getD_append _ _ _ _ (by rw [List.length_map]; exact hlt)]
      rw [List.getD_eq_getElem?_getD, List.getElem?_map,
        List.getElem?_eq_getElem hlt]
      simp only [Option.map_some', Option.getD_some]
      rw [guardedRank, if_pos hlt]
      rw [List.getD_eq_getElem _ _ hlt]
    · subst heq
      rw [List.getD_append_right _ _ _ _ (by simp)]
      simp [guardedRank]
    · rw [List.getD_eq_getElem?_getD]
      rw [List.getElem?_eq_none (by simp; omega)]
      rw [guardedRank, if_neg (by omega)]
      rfl
  have hdim_eq : ∀ i, i < cplx.length →
      (cplx.map dd ++ [(cplx.getLast?.elim 0 (fun e => (e.2.2 : ℤ)))]).getD (i+1) 0 =
      dimCOf cplx i := by
    intro i hi
    rcases Nat.lt_or_ge (i+1) cplx.length with hlt | hge
    · rw [List.getD_append _ _ _ _ (by rw [List.length_map]; exact hlt)]
      rw [List.getD_eq_getElem?_getD, List.getElem?_map,
        List.getElem?_eq_getElem hlt]
      simp only [Option.map_some', Option.getD_some]
      rw [dimCOf, if_pos hlt, List.getD_eq_getElem _ _ hlt]
    · have heq : i + 1 = cplx.length := by omega
      rw [List.getD_append_right _ _ _ _ (by simp [heq])]
      simp [heq, dimCOf]
  constructor
  · constructor
    · simp [compute_homology_ranks]
    · intro i hi
      have hmain : (compute_homology_ranks rank cplx).getD i 0 =
          ((cplx.map dd ++
            [(cplx.getLast?.elim 0 (fun e => (e.2.2 : ℤ)))]).getD (i + 1) 0) -
          ((cplx.map rk ++ [0]).getD i 0) -
          ((cplx.map rk ++ [0]).getD (i+1) 0) := by
        simp only [compute_homology_ranks]
        rw [List.getD_eq_getElem?_getD, List.getElem?_map, List.getElem?_range hi]
        rfl
      rw [hmain, hrank_eq, hrank_eq, hdim_eq i hi]
  · intro rank2 hagree
    simp only [compute_homology_ranks]
    have : cplx.map (fun e =>
        if 0 < e.1.num_rows ∧ 0 < e.1.num_columns then (rank2 e.1 : ℤ) else 0) =
        cplx.map rk := by
      apply List.map_congr_left
      intro e he
      by_cases h : 0 < e.1.num_rows ∧ 0 < e.1.num_columns
      · simp [hrk, h, hagree e.1 h.1 h.2]
      · simp [hrk, h]
    rw [this]


/-- Witness for C2: the theorem applied to the segment complex with the
oracle constantly `1`. -/
theorem C2_compute_homology_ranks_witness :
    segComplex ≠ [] ∧
    (((compute_homology_ranks (fun _ : SimpleMatrix => (1 : ℕ)) segComplex).length = segComplex.length ∧
      ∀ i, i < segComplex.length →
        (compute_homology_ranks (fun _ : SimpleMatrix => (1 : ℕ)) segComplex).getD i 0 =
          dimCOf segComplex i - guardedRank (fun _ : SimpleMatrix => (1 : ℕ)) segComplex i -
            guardedRank (fun _ : SimpleMatrix => (1 : ℕ)) segComplex (i + 1)) ∧
    (∀ rank2 : SimpleMatrix → ℕ,
        (∀ A, 0 < A.num_rows → 0 < A.num_columns → rank2 A = (fun _ : SimpleMatrix => (1 : ℕ)) A) →
        compute_homology_ranks rank2 segComplex =
          compute_homology_ranks (fun _ : SimpleMatrix => (1 : ℕ)) segComplex)) :=
  And.intro (by decide)
    (C2_compute_homology_ranks (fun _ : SimpleMatrix => (1 : ℕ)) segComplex (by decide))

theorem isCanonicalGo_some_spec (l : List (List ℤ)) :
    ∀ p : List ℤ, (∀ v ∈ l, v ≠ []) → p ≠ [] →
    (isCanonicalGo (some p) l = true ↔
      ((∀ v ∈ l, is_canonical_representative v = true) ∧
        List.Chain' (fun a b => vertexCmp a b ≠ .lt) (p :: l))) := by
  induction l with
  | nil =>
      intro p _ _
      simp [isCanonicalGo]
  | cons v rest ih =>
      intro p hl hp
      have hv : v ≠ [] := hl v (List.mem_cons_self v rest)
      have hrest : ∀ w ∈ rest, w ≠ [] := fun w hw => hl w (List.mem_cons_of_mem v hw)
      have hpe : p.isEmpty = false := by
        cases p with
        | nil => exact absurd rfl hp
        | cons a as => rfl
      rw [isCanonicalGo]
      by_cases hcanon : is_canonical_representative v = true
      · rw [if_neg (by simp [hcanon])]
        by_cases hlt : vertexCmp p v = .lt
        · rw [if_pos (by simp [hpe, hlt])]
          constructor
          · intro h; exact absurd h (by simp)
          · rintro ⟨-, hchain⟩
            exact absurd hlt (List.chain'_cons.mp hchain).1
        · rw [if_neg (by simp [hlt])]
          rw [ih v hrest hv]
          rw [List.chain'_cons]
          constructor
          · rintro ⟨hall, hchain⟩
            exact ⟨fun w hw => (List.mem_cons.mp hw).elim (fun h => h ▸ hcanon) (hall w),
              hlt, hchain⟩
          · rintro ⟨hall, -, hchain⟩
            exact ⟨fun w hw => hall w (List.mem_cons_of_mem v hw), hchain⟩
      · rw [if_pos (by simp [hcanon])]
        constructor
        · intro h; exact absurd h (by simp)
        · rintro ⟨hall, -⟩
          exact absurd (hall v (List.mem_cons_self v rest)) hcanon

/-- C7 (amended).  For every graph whose vertices are all non-empty (a
construction precondition per the specification), `Graph.is_canonical`
returns `True` iff every vertex is a canonical representative (maximal
rotation) and consecutive vertices are non-increasing under the
`Vertex.__cmp__` order (valence first, shorter vertices sort first, then
lexicographic): no vertex is followed by a strictly greater one. -/
theorem C7_is_canonical_amended (G : Graph)
    (hv : ∀ v ∈ G.vertices, v ≠ []) :
    is_canonical G = true ↔
      ((∀ v ∈ G.vertices, is_canonical_representative v = true) ∧
        List.Chain' (fun a b => vertexCmp a b ≠ .lt) G.vertices) := by
  rw [is_canonical]
  cases hG : G.vertices with
  | nil => simp [isCanonicalGo]
  | cons v rest =>
      have hv' : ∀ w ∈ rest, w ≠ [] := by
        intro w hw; exact hv w (hG ▸ List.mem_cons_of_mem v hw)
      have hvne : v ≠ [] := hv v (hG ▸ List.mem_cons_self v rest)
      rw [isCanonicalGo]
      by_cases hcanon : is_canonical_representative v = true
      · rw [if_neg (by simp [hcanon])]
        rw [isCanonicalGo_some_spec rest v hv' hvne]
        constructor
        · rintro ⟨hall, hchain⟩
          exact ⟨fun w hw => (List.mem_cons.mp hw).elim (fun h => h ▸ hcanon) (hall w), hchain⟩
        · rintro ⟨hall, hchain⟩
          exact ⟨fun w hw => hall w (List.mem_cons_of_mem v hw), hchain⟩
      · rw [if_pos (by simp [hcanon])]
        constructor
        · intro h; exact absurd h (by simp)
        · rintro ⟨hall, -⟩
          exact absurd (hall v (List.mem_cons_self v rest)) hcanon

/-- C7. The claim states that `Graph.is_canonical` returns `True` iff every
vertex is in maximal rotation and the vertex sequence is *non-decreasing*
under the valence-first, then-lexicographic order (shorter vertices first).
This fails on the valid graph `Graph([Vertex([2,1,0]), Vertex([3,3,2,1,0])])`:
both vertices are canonical representatives and the sequence is strictly
increasing under that order (a 3-valent vertex precedes a 5-valent one), so
the claim predicts `True`, but the code returns `False` — it rejects exactly
a previous vertex that is strictly *smaller* (rg.py line 811), i.e. it
requires a non-increasing sequence. -/
theorem C7_is_canonical_counterexample :
    okB (mkGraph [[2, 1, 0], [3, 3, 2, 1, 0]]) = true ∧
    graphWF (mkGraph [[2, 1, 0], [3, 3, 2, 1, 0]]) = true ∧
    ¬ (is_canonical (mkGraph [[2, 1, 0], [3, 3, 2, 1, 0]]) = true ↔
        ((∀ v ∈ (mkGraph [[2, 1, 0], [3, 3, 2, 1, 0]]).vertices,
            is_canonical_representative v = true) ∧
          List.Chain' (fun a b => vertexCmp a b ≠ .gt)
            (mkGraph [[2, 1, 0], [3, 3, 2, 1, 0]]).vertices)) := by
  refine ⟨by decide, by decide, fun hiff => ?_⟩
  have h1 : is_canonical (mkGraph [[2, 1, 0], [3, 3, 2, 1, 0]]) = false := by decide
  have h2 : ∀ v ∈ (mkGraph [[2, 1, 0], [3, 3, 2, 1, 0]]).vertices,
      is_canonical_representative v = true := by decide
  have h3 : List.Chain' (fun a b => vertexCmp a b ≠ .gt)
      (mkGraph [[2, 1, 0], [3, 3, 2, 1, 0]]).vertices := by
    show List.Chain' (fun a b => vertexCmp a b ≠ .gt)
      ([[2, 1, 0], [3, 3, 2, 1, 0]] : List (List ℤ))
    exact List.chain'_cons.mpr ⟨by decide, List.chain'_singleton _⟩
  rw [hiff.mpr ⟨h2, h3⟩] at h1
  exact absurd h1 (by decide)

/-- Witness for C7: the amended theorem applied to the theta graph
`Graph([Vertex([2,1,0]), Vertex([2,0,1])])` (the `is_canonical` doctest at
rg.py line 800). -/
theorem C7_is_canonical_amended_witness :
    (∀ v ∈ (mkGraph [[2, 1, 0], [2, 0, 1]]).vertices, v ≠ []) ∧
    (is_canonical (mkGraph [[2, 1, 0], [2, 0, 1]]) = true ↔
      ((∀ v ∈ (mkGraph [[2, 1, 0], [2, 0, 1]]).vertices,
          is_canonical_representative v = true) ∧
        List.Chain' (fun a b => vertexCmp a b ≠ .lt)
          (mkGraph [[2, 1, 0], [2, 0, 1]]).vertices)) :=
  ⟨by decide, C7_is_canonical_amended (mkGraph [[2, 1, 0], [2, 0, 1]]) (by decide)⟩

end FatGHoL

namespace FatGHoL

theorem foldl_mul_map {α : Type} (f : α → ℤ) (l : List α) :
    ∀ s : ℤ, l.foldl (fun acc x => acc * f x) s = s * (l.map f).prod := by
  induction l with
  | nil => intro s; simp
  | cons a t ih =>
      intro s
      simp only [List.foldl_cons, List.map_cons, List.prod_cons, ih]
      ring

/-- C4.  The claim states that `Graph.is_orientation_reversing` returns
`True` exactly when the product of the sign of the vertex permutation with
one per-vertex rotation factor (`+1` iff `(l-1)*r` is even) equals `-1`.
The current-generation implementation (rg.py lines 861-875) never consults
the rotation amounts: on the one-vertex graph `Graph([Vertex([1,0,1,0])])`
the rotation-by-one automorphism `(pv = id, rots = (1,), pe = {0↦1,1↦0})` is
produced by `isomorphisms_to`, the claimed formula gives
`(+1)·(-1)^((4-1)·1) = -1` (orientation-reversing), yet the method returns
`False` (its endpoint-arrow product ignores the rotation). -/
theorem C4_orientation_rotation_counterexample :
    (([0], [1], [((0 : ℤ), (1 : ℤ)), ((1 : ℤ), (0 : ℤ))]) :
        List ℕ × List ℕ × List (ℤ × ℤ)) ∈ automorphisms (mkGraph [[1, 0, 1, 0]]) ∧
    claimOrientationSign (mkGraph [[1, 0, 1, 0]])
        ([0], [1], [((0 : ℤ), (1 : ℤ)), ((1 : ℤ), (0 : ℤ))]) = -1 ∧
    ¬ (is_orientation_reversing (mkGraph [[1, 0, 1, 0]])
          ([0], [1], [((0 : ℤ), (1 : ℤ)), ((1 : ℤ), (0 : ℤ))]) = true ↔
        claimOrientationSign (mkGraph [[1, 0, 1, 0]])
          ([0], [1], [((0 : ℤ), (1 : ℤ)), ((1 : ℤ), (0 : ℤ))]) = -1) := by
  decide

/-- C4 (amended).  `Graph.is_orientation_reversing` of rg.py lines 861-875
depends only on the vertex permutation `pv` of the automorphism — the
per-vertex rotation amounts and the edge permutation never affect the
result — and, for a graph whose endpoint pairs are stored in non-decreasing
order (as the constructor's scan produces them), it returns `True` exactly
when the product of the sign of `pv` with one factor per edge — `+1` if the
translated endpoint pair is again non-decreasing, `-1` if `pv` reverses its
order — equals `-1`.  (The per-vertex-rotation formula of the claim is the
earlier generation's `is_orientation_reversing`, kept in the repository's
`src/rg.py` and embedded as `is_orientation_reversing_old`.) -/
theorem C4_orientation_reversing_amended (G : Graph)
    (pv rots rots' : List ℕ) (pe pe' : List (ℤ × ℤ))
    (hsorted : sortedEndpoints G = true) :
    (is_orientation_reversing G (pv, rots, pe) = true ↔
      permSign pv * (G.endpoints.map (fun ep => arrow (translatePv pv ep))).prod = -1) ∧
    is_orientation_reversing G (pv, rots, pe) = is_orientation_reversing G (pv, rots', pe') := by
  constructor
  · rw [is_orientation_reversing]
    simp only [foldl_mul_map, beq_iff_eq]
    have harr : G.endpoints.map (fun ep => arrow ep * arrow (translatePv pv ep)) =
        G.endpoints.map (fun ep => arrow (translatePv pv ep)) := by
      apply List.map_congr_left
      intro ep hep
      have hep' := (List.all_eq_true.mp hsorted) ep hep
      rcases ep with ⟨a', b'⟩
      rcases a' with _ | a
      · simp at hep'
      rcases b' with _ | b
      · simp at hep'
      have hle : a ≤ b := by simpa using hep'
      have : arrow (some a, some b) = 1 := by
        simp [arrow, Nat.not_lt.mpr hle]
      rw [this, one_mul]
    rw [harr]
  · rfl

/-- Witness for C4 (amended): the theorem applied to the theta graph
`Graph([Vertex([2,1,0]), Vertex([2,0,1])])` and the vertex swap `pv = (1,0)`
with two choices of rotation data. -/
theorem C4_orientation_reversing_amended_witness :
    sortedEndpoints (mkGraph [[2, 1, 0], [2, 0, 1]]) = true ∧
    ((is_orientation_reversing (mkGraph [[2, 1, 0], [2, 0, 1]])
          ([1, 0], [0, 0], [((0 : ℤ), (0 : ℤ))]) = true ↔
        permSign [1, 0] *
          ((mkGraph [[2, 1, 0], [2, 0, 1]]).endpoints.map
            (fun ep => arrow (translatePv [1, 0] ep))).prod = -1) ∧
      is_orientation_reversing (mkGraph [[2, 1, 0], [2, 0, 1]])
          ([1, 0], [0, 0], [((0 : ℤ), (0 : ℤ))]) =
        is_orientation_reversing (mkGraph [[2, 1, 0], [2, 0, 1]])
          ([1, 0], [1, 2], [])) :=
  ⟨by decide,
    C4_orientation_reversing_amended (mkGraph [[2, 1, 0], [2, 0, 1]])
      [1, 0] [0, 0] [1, 2] [((0 : ℤ), (0 : ℤ))] [] (by decide)⟩

theorem rotate_eq_rotate (v : List ℤ) (s : ℕ) (h : s ≤ v.length) :
    rotate s v = v.rotate s :=
  (List.rotate_eq_drop_append_take h).symm

theorem cyclicEqB_iff (v w : List ℤ) : cyclicEqB v w = true ↔ v.IsRotated w := by
  unfold cyclicEqB
  simp only [Bool.or_eq_true, beq_iff_eq, List.any_eq_true, List.mem_range]
  constructor
  · rintro (h | ⟨s, hs, h2⟩)
    · subst h; exact List.IsRotated.refl v
    · exact ⟨s, by rw [← rotate_eq_rotate v s (le_of_lt hs)]; exact h2⟩
  · intro h
    rcases List.isRotated_iff_mod.mp h with ⟨n, hn, heq⟩
    rcases Nat.lt_or_ge n v.length with hlt | hge
    · exact Or.inr ⟨n, hlt, by rw [rotate_eq_rotate v n (le_of_lt hlt)]; exact heq⟩
    · have hnl : n = v.length := le_antisymm hn hge
      subst hnl
      rw [List.rotate_length] at heq
      exact Or.inl heq

theorem cyclicEqB_refl (v : List ℤ) : cyclicEqB v v = true :=
  (cyclicEqB_iff v v).mpr (List.IsRotated.refl v)

theorem cyclicEqB_symm {v w : List ℤ} (h : cyclicEqB v w = true) : cyclicEqB w v = true :=
  (cyclicEqB_iff w v).mpr ((cyclicEqB_iff v w).mp h).symm

theorem cyclicEqB_trans {u v w : List ℤ} (h1 : cyclicEqB u v = true)
    (h2 : cyclicEqB v w = true) : cyclicEqB u w = true :=
  (cyclicEqB_iff u w).mpr (((cyclicEqB_iff u v).mp h1).trans ((cyclicEqB_iff v w).mp h2))

theorem cyclicEqB_length {v w : List ℤ} (h : cyclicEqB v w = true) :
    v.length = w.length :=
  ((cyclicEqB_iff v w).mp h).perm.length_eq


theorem pickShift_spec {v w : List ℤ} (hv : v ≠ []) (h : cyclicEqB v w = true) :
    rotate (pickShift v w) v = w ∧ pickShift v w < v.length := by
  have hex : ∃ s ∈ List.range v.length, (rotate s v == w) = true := by
    unfold cyclicEqB at h
    simp only [Bool.or_eq_true, beq_iff_eq, List.any_eq_true, List.mem_range] at h
    rcases h with h | ⟨s, hs, h2⟩
    · refine ⟨0, ?_, ?_⟩
      · simp only [List.mem_range]
        exact List.length_pos.mpr hv
      · subst h; simp [rotate]
    · exact ⟨s, by simpa using hs, by simp [h2]⟩
  have hsome : ((List.range v.length).find? (fun s => rotate s v == w)).isSome := by
    rw [List.find?_isSome]
    exact hex
  rcases Option.isSome_iff_exists.mp hsome with ⟨s', hfind⟩
  have hp := List.find?_some hfind
  have hm := List.mem_of_find?_eq_some hfind
  unfold pickShift
  rw [hfind]
  simp only [Option.getD_some]
  exact ⟨by simpa using hp, by simpa using hm⟩

theorem peLookup_diag_some {pe : List (ℤ × ℤ)} (hd : DiagPe pe) {x y : ℤ}
    (h : peLookup pe x = some y) : y = x ∧ (x, x) ∈ pe := by
  unfold peLookup at h
  rcases hfind : pe.find? (fun p => p.1 == x) with _ | q
  · rw [hfind] at h; simp at h
  · rw [hfind] at h
    simp only [Option.map_some', Option.some.injEq] at h
    have hq1 : q.1 = x := by simpa using List.find?_some hfind
    have hmem := List.mem_of_find?_eq_some hfind
    have hq2 : q.1 = q.2 := hd q hmem
    constructor
    · rw [← h, ← hq2, hq1]
    · have : q = (x, x) := by
        rcases q with ⟨q1, q2⟩
        simp only at hq1 hq2
        rw [hq1] at hq2
        rw [hq1, ← hq2]
      rwa [this] at hmem

theorem peLookup_mem_diag {pe : List (ℤ × ℤ)} (hd : DiagPe pe) {x : ℤ}
    (h : (x, x) ∈ pe) : peLookup pe x = some x := by
  have hsome : (pe.find? (fun p => p.1 == x)).isSome := by
    rw [List.find?_isSome]
    exact ⟨(x, x), h, by simp⟩
  rcases Option.isSome_iff_exists.mp hsome with ⟨q, hfind⟩
  have hlk : peLookup pe x = some q.2 := by
    unfold peLookup; rw [hfind]; rfl
  rcases peLookup_diag_some hd hlk with ⟨hy, -⟩
  rw [hlk, hy]

theorem peInsert_diag {pe : List (ℤ × ℤ)} (hd : DiagPe pe) (x : ℤ) :
    ∃ pe', peInsert pe x x = some pe' ∧ DiagPe pe' ∧
      (∀ p ∈ pe, p ∈ pe') ∧ (x, x) ∈ pe' := by
  rcases hlk : peLookup pe x with _ | y
  · have hany : pe.any (fun p => p.2 == x) = false := by
      by_contra hc
      rw [Bool.not_eq_false, List.any_eq_true] at hc
      rcases hc with ⟨p, hp, hpx⟩
      have h2 : p.2 = x := by simpa using hpx
      have h1 : p.1 = p.2 := hd p hp
      have : (x, x) ∈ pe := by
        have : p = (x, x) := by
          rcases p with ⟨p1, p2⟩
          simp only at h1 h2
          rw [h2] at h1
          rw [h1, h2]
        rwa [this] at hp
      rw [peLookup_mem_diag hd this] at hlk
      exact Option.noConfusion hlk
    have hres : peInsert pe x x = some (pe ++ [(x, x)]) := by
      unfold peInsert
      rw [hlk, hany]
      simp
    refine ⟨pe ++ [(x, x)], hres, ?_, ?_, ?_⟩
    · intro p hp
      rcases List.mem_append.mp hp with h | h
      · exact hd p h
      · simp only [List.mem_singleton] at h
        subst h; rfl
    · intro p hp; exact List.mem_append_left _ hp
    · exact List.mem_append_right _ (by simp)
  · rcases peLookup_diag_some hd hlk with ⟨hy, hmem⟩
    have hres : peInsert pe x x = some pe := by
      unfold peInsert
      rw [hlk]
      simp [hy]
    exact ⟨pe, hres, hd, fun p hp => hp, hmem⟩

theorem peExtend_diag (pairs : List (ℤ × ℤ)) (hpairs : ∀ p ∈ pairs, p.1 = p.2) :
    ∀ pe, DiagPe pe → ∃ pe', peExtend pe pairs = some pe' ∧ DiagPe pe' ∧
      (∀ p ∈ pe, p ∈ pe') ∧ (∀ p ∈ pairs, p ∈ pe') := by
  induction pairs with
  | nil => intro pe hd; exact ⟨pe, rfl, hd, fun p hp => hp, by simp⟩
  | cons q rest ih =>
      intro pe hd
      have hq : q.1 = q.2 := hpairs q (List.mem_cons_self q rest)
      rcases peInsert_diag hd q.1 with ⟨pe2, hins, hd2, hsub2, hmem2⟩
      rcases ih (fun p hp => hpairs p (List.mem_cons_of_mem q hp)) pe2 hd2 with
        ⟨pe', hext, hd', hsub', hmem'⟩
      refine ⟨pe', ?_, hd', fun p hp => hsub' p (hsub2 p hp), ?_⟩
      · rw [peExtend]
        have : peInsert pe q.1 q.2 = some pe2 := by rw [← hq]; exact hins
        rw [this]
        exact hext
      · intro p hp
        rcases List.mem_cons.mp hp with h | h
        · have hq' : p = (q.1, q.1) := by
            rw [h]
            exact Prod.ext rfl hq.symm
          rw [hq']
          exact hsub' _ hmem2
        · exact hmem' p h

theorem zip_self_pairs (l : List ℤ) : l.zip l = l.map (fun x => (x, x)) := by
  induction l with
  | nil => rfl
  | cons a t ih => simp [List.zip_cons_cons, ih]

theorem buildPeAux_diag (G H : Graph) (pv shifts : List ℕ) (js : List ℕ)
    (hjs : ∀ j ∈ js,
      rotate (shifts.getD j 0) (G.vertices.getD j []) =
        H.vertices.getD (pv.getD j 0) []) :
    ∀ pe, DiagPe pe → ∃ pe', buildPeAux G H pv shifts js pe = some pe' ∧
      DiagPe pe' ∧ (∀ p ∈ pe, p ∈ pe') ∧
      (∀ j ∈ js, ∀ c ∈ H.vertices.getD (pv.getD j 0) [], ((c, c) : ℤ × ℤ) ∈ pe') := by
  induction js with
  | nil => intro pe hd; exact ⟨pe, rfl, hd, fun p hp => hp, by simp⟩
  | cons j rest ih =>
      intro pe hd
      have hrot := hjs j (List.mem_cons_self j rest)
      have hpairs : ∀ p ∈ (rotate (shifts.getD j 0) (G.vertices.getD j [])).zip
          (H.vertices.getD (pv.getD j 0) []), p.1 = p.2 := by
        rw [hrot, zip_self_pairs]
        intro p hp
        rcases List.mem_map.mp hp with ⟨c, -, hc⟩
        rw [← hc]
      rcases peExtend_diag _ hpairs pe hd with ⟨pe2, hext, hd2, hsub2, hmem2⟩
      rcases ih (fun i hi => hjs i (List.mem_cons_of_mem j hi)) pe2 hd2 with
        ⟨pe', haux, hd', hsub', hmem'⟩
      refine ⟨pe', ?_, hd', fun p hp => hsub' p (hsub2 p hp), ?_⟩
      · rw [buildPeAux]
        rw [hext]
        exact haux
      · intro i hi c hc
        rcases List.mem_cons.mp hi with h | h
        · subst h
          apply hsub'
          apply hmem2
          rw [hrot, zip_self_pairs]
          exact List.mem_map.mpr ⟨c, hc, rfl⟩
        · exact hmem' i h c hc

theorem getD_map_range {α : Type} (f : ℕ → α) (n i : ℕ) (hi : i < n) (d : α) :
    ((List.range n).map f).getD i d = f i := by
  rw [List.getD_eq_getElem _ _ (by simpa using hi)]
  simp

theorem range_getD_lt (n i d : ℕ) (h : i < n) : (List.range n).getD i d = i := by
  rw [List.getD_eq_getElem _ _ (by simpa using h)]
  simp

theorem range_getElem?_getD (n i : ℕ) : (List.range n)[i]?.getD i = i := by
  rcases Nat.lt_or_ge i n with h | h
  · rw [List.getElem?_range h]
    rfl
  · rw [List.getElem?_eq_none (by simpa using h)]
    rfl

theorem translatePv_range (n : ℕ) (p : Option ℕ × Option ℕ) :
    translatePv (List.range n) p = p := by
  rcases p with ⟨a, b⟩
  unfold translatePv
  cases a <;> cases b <;> simp [List.getD_eq_getElem?_getD, range_getElem?_getD]

theorem translateTuple_diag {pe : List (ℤ × ℤ)} (hd : DiagPe pe) (t : List ℤ) :
    translateTuple pe t = t := by
  unfold translateTuple
  conv_rhs => rw [show t = t.map id from (List.map_id t).symm]
  apply List.map_congr_left
  intro x _
  rcases hlk : peLookup pe x with _ | y
  · simp
  · rcases peLookup_diag_some hd hlk with ⟨hy, -⟩
    simp [hy]

theorem upairEq_refl (p : Option ℕ × Option ℕ) : upairEq p p = true := by
  unfold upairEq
  simp

theorem numberingLookup_congr (nb : List (List ℤ × ℕ)) {k1 k2 : List ℤ}
    (h : cyclicEqB k1 k2 = true) :
    numberingLookup nb k1 = numberingLookup nb k2 := by
  unfold numberingLookup
  congr 1
  induction nb with
  | nil => rfl
  | cons p rest ih =>
      rw [List.find?_cons, List.find?_cons]
      have hpred : cyclicEqB p.1 k1 = cyclicEqB p.1 k2 := by
        by_cases hc : cyclicEqB p.1 k1 = true
        · rw [hc, cyclicEqB_trans hc h]
        · rw [Bool.not_eq_true] at hc
          rw [hc]
          by_cases hc2 : cyclicEqB p.1 k2 = true
          · exact absurd (cyclicEqB_trans hc2 (cyclicEqB_symm h)) (by rw [hc]; simp)
          · rw [Bool.not_eq_true] at hc2
            rw [hc2]
      rw [hpred, ih]

theorem listProd_mem (ls : List (List ℕ)) :
    ∀ xs : List ℕ, xs.length = ls.length →
    (∀ i, i < ls.length → xs.getD i 0 ∈ ls.getD i []) → xs ∈ listProd ls := by
  induction ls with
  | nil =>
      intro xs hlen _
      rw [List.length_nil, List.length_eq_zero] at hlen
      subst hlen
      simp [listProd]
  | cons l ls ih =>
      intro xs hlen hmem
      cases xs with
      | nil => simp at hlen
      | cons x xs' =>
          unfold listProd
          apply List.mem_flatMap.mpr
          refine ⟨x, ?_, ?_⟩
          · have := hmem 0 (by simp)
            simpa using this
          · apply List.mem_map.mpr
            refine ⟨xs', ih xs' (by simpa using hlen) ?_, rfl⟩
            intro i hi
            have := hmem (i + 1) (by simpa using hi)
            simpa using this

theorem wf_parts {G : Graph} (h : graphWF G = true) :
    okB G = true ∧ G.num_vertices = G.vertices.length ∧
      G.endpoints.length = G.num_edges + G.num_external_edges ∧
      (∀ x ∈ flatColors G,
        -(G.num_external_edges : ℤ) ≤ x ∧ x < (G.num_edges : ℤ)) := by
  unfold graphWF at h
  simp only [Bool.and_eq_true, beq_iff_eq, List.all_eq_true, decide_eq_true_eq] at h
  obtain ⟨⟨⟨hok, hnv⟩, hlen⟩, hcol⟩ := h
  exact ⟨hok, hnv, hlen, hcol⟩

theorem wf_color_mem {G : Graph} (h : graphWF G = true) :
    ∀ x : ℕ, x < G.num_edges → (x : ℤ) ∈ flatColors G := by
  intro x hx
  obtain ⟨hok, -, -, hcol⟩ := wf_parts h
  unfold okB at hok
  simp only [Bool.and_eq_true, decide_eq_true_eq, List.all_eq_true] at hok
  obtain ⟨⟨⟨⟨hE, -⟩, -⟩, -⟩, hcnt⟩ := hok
  have hs := hcnt x (List.mem_range.mpr (by omega))
  rw [if_pos hx] at hs
  have hs' : (flatColors G).count (x : ℤ) +
      (flatColors G).count ((x : ℤ) -
        ((G.num_edges + G.num_external_edges : ℕ) : ℤ)) = 2 := by
    simpa using hs
  have hzero : (flatColors G).count ((x : ℤ) -
      ((G.num_edges + G.num_external_edges : ℕ) : ℤ)) = 0 := by
    rw [List.count_eq_zero]
    intro hmem
    have hb := hcol _ hmem
    have := hb.1
    push_cast at this
    omega
  rw [hzero, Nat.add_zero] at hs'
  exact List.count_pos_iff_mem.mp (by omega)

theorem cons_mem_insertEverywhere (x : ℕ) (xs : List ℕ) :
    (x :: xs) ∈ insertEverywhere x xs := by
  cases xs <;> simp [insertEverywhere]

theorem self_mem_permsOf (xs : List ℕ) : xs ∈ permsOf xs := by
  induction xs with
  | nil => simp [permsOf]
  | cons x xs ih =>
      unfold permsOf
      exact List.mem_flatMap.mpr ⟨xs, ih, cons_mem_insertEverywhere x xs⟩

theorem vertices_getD_ne_nil {G : Graph} (hv : ∀ v ∈ G.vertices, v ≠ [])
    {j : ℕ} (hj : j < G.vertices.length) : G.vertices.getD j [] ≠ [] := by
  rw [List.getD_eq_getElem _ _ hj]
  exact hv _ (List.getElem_mem hj)

theorem mem_flat_exists_index {G : Graph} {c : ℤ} (h : c ∈ flatColors G) :
    ∃ j, j < G.vertices.length ∧ c ∈ G.vertices.getD j [] := by
  unfold flatColors at h
  rcases List.mem_join.mp h with ⟨v, hv, hc⟩
  rcases List.mem_iff_getElem.mp hv with ⟨j, hj, rfl⟩
  exact ⟨j, hj, by rwa [List.getD_eq_getElem _ _ hj]⟩

theorem engine_nonempty_of_shortcut2 (G H : Graph)
    (hWFH : graphWF H = true)
    (hGv : ∀ v ∈ G.vertices, v ≠ [])
    (hnG : numberingWF G = true)
    (hE : G.num_edges = H.num_edges)
    (hvEq : verticesEq G.vertices H.vertices = true)
    (hepEq : G.endpoints = H.endpoints)
    (hnum : numberingDictEq G.numbering H.numbering = true) :
    isomorphisms_to G H ≠ [] := by
  have hvEq' := hvEq
  unfold verticesEq at hvEq'
  simp only [Bool.and_eq_true, beq_iff_eq, List.all_eq_true] at hvEq'
  obtain ⟨hlen, hzip⟩ := hvEq'
  have hpair : ∀ j, j < G.vertices.length →
      cyclicEqB (G.vertices.getD j []) (H.vertices.getD j []) = true := by
    intro j hj
    have hj' : j < H.vertices.length := hlen ▸ hj
    refine hzip (G.vertices.getD j [], H.vertices.getD j []) ?_
    rw [List.getD_eq_getElem _ _ hj, List.getD_eq_getElem _ _ hj']
    have hjz : j < (G.vertices.zip H.vertices).length := by
      rw [List.length_zip]
      omega
    have : (G.vertices[j], H.vertices[j]) = (G.vertices.zip H.vertices)[j] := by
      rw [List.getElem_zip]
    rw [this]
    exact List.getElem_mem hjz
  set idPv : List ℕ := List.range G.vertices.length with hidPv
  set shifts : List ℕ := (List.range G.vertices.length).map
    (fun j => pickShift (G.vertices.getD j []) (H.vertices.getD j [])) with hshifts
  have hsh : ∀ j, j  < G.vertices.length → shifts.getD j 0 =
      pickShift (G.vertices.getD j []) (H.vertices.getD j []) := by
    intro j hj
    rw [hshifts]
    exact getD_map_range _ G.vertices.length j hj 0
  have hrot : ∀ j, j  < G.vertices.length →
      rotate (shifts.getD j 0) (G.vertices.getD j []) = H.vertices.getD j [] ∧
      shifts.getD j 0 < (G.vertices.getD j []).length := by
    intro j hj
    rw [hsh j hj]
    exact pickShift_spec (vertices_getD_ne_nil hGv hj) (hpair j hj)
  have hpvD : ∀ j, j  < G.vertices.length → idPv.getD j 0 = j := by
    intro j hj
    rw [hidPv]
    exact range_getD_lt G.vertices.length j 0 hj
  have hjs : ∀ j ∈ List.range G.vertices.length,
      rotate (shifts.getD j 0) (G.vertices.getD j []) =
        H.vertices.getD (idPv.getD j 0) [] := by
    intro j hj
    have hjV : j  < G.vertices.length := List.mem_range.mp hj
    rw [hpvD j hjV]
    exact (hrot j hjV).1
  obtain ⟨pe, hbuild, hdiag, -, hcov⟩ :=
    buildPeAux_diag G H idPv shifts (List.range G.vertices.length) hjs []
      (fun p hp => absurd hp (List.not_mem_nil p))
  have hbuild' : buildPe G H idPv shifts = some pe := hbuild
  have hkey : ∀ c : ℤ, c ∈ flatColors H → ((c, c) : ℤ × ℤ) ∈ pe := by
    intro c hc
    rcases mem_flat_exists_index hc with ⟨j, hjH, hcj⟩
    have hjV : j < G.vertices.length := by omega
    have := hcov j (List.mem_range.mpr hjV) c
    rw [hpvD j hjV] at this
    exact this hcj
  have hEpos : 0 < H.num_edges := by
    obtain ⟨hok, -, -, -⟩ := wf_parts hWFH
    unfold okB at hok
    simp only [Bool.and_eq_true, decide_eq_true_eq] at hok
    obtain ⟨⟨⟨⟨hE0, -⟩, -⟩, -⟩, -⟩ := hok
    exact hE0
  have hpemem : (((0 : ℤ), (0 : ℤ)) : ℤ × ℤ) ∈ pe :=
    hkey 0 (wf_color_mem hWFH 0 hEpos)
  have hpepos : 0 < pe.length := List.length_pos.mpr (List.ne_nil_of_mem hpemem)
  have hadj : adjacencyOk G H idPv pe = true := by
    unfold adjacencyOk
    rw [Bool.and_eq_true]
    refine ⟨beq_iff_eq.mpr hE.symm, List.all_eq_true.mpr ?_⟩
    intro x hx
    have hxE : x < G.num_edges := List.mem_range.mp hx
    have hxH : ((x : ℕ) : ℤ) ∈ flatColors H := wf_color_mem hWFH x (hE ▸ hxE)
    have hlk := peLookup_mem_diag hdiag (hkey _ hxH)
    rw [hlk, hidPv, translatePv_range, hepEq]
    simp [upairEq_refl]
  have hnok : numberingOk G H pe = true := by
    rcases hGnb : G.numbering with _ | nbG
    · simp [numberingOk, hGnb]
    · rcases hHnb : H.numbering with _ | nbH
      · rw [hGnb, hHnb] at hnum
        simp [numberingDictEq] at hnum
      · simp only [numberingOk, hGnb, hHnb]
        rw [List.all_eq_true]
        intro bc hbc
        have hWFn := hnG
        unfold numberingWF at hWFn
        rw [hGnb] at hWFn
        simp only [List.all_eq_true] at hWFn
        have hlkG := hWFn bc hbc
        rw [hGnb, hHnb] at hnum
        unfold numberingDictEq at hnum
        rw [Bool.and_eq_true] at hnum
        obtain ⟨h12, -⟩ := hnum
        rw [List.all_eq_true] at h12
        rcases hfind : nbG.find? (fun p => cyclicEqB p.1 bc) with _ | p
        · exfalso
          unfold numberingLookup at hlkG
          rw [hfind] at hlkG
          simp at hlkG
        · have hpm := List.mem_of_find?_eq_some hfind
          have hpp : cyclicEqB p.1 bc = true := by simpa using List.find?_some hfind
          have hH1 : numberingLookup nbH p.1 = some p.2 := by simpa using h12 p hpm
          have hHbc : numberingLookup nbH bc = some p.2 := by
            rw [← numberingLookup_congr nbH hpp]
            exact hH1
          have hGbc : numberingLookup nbG bc = some p.2 := by
            unfold numberingLookup
            rw [hfind]
            rfl
          rw [translateTuple_diag hdiag bc, hGbc, hHbc]
          simp
  have hacc : acceptCandidate G H idPv shifts = some (idPv, shifts, pe) := by
    simp only [acceptCandidate, hbuild']
    rw [if_pos hpepos, if_pos hadj, if_pos hnok]
  have hval : vertexValences G = vertexValences H := by
    unfold vertexValences
    suffices h : G.vertices.map List.length = H.vertices.map List.length by rw [h]
    apply List.ext_getElem (by simp [hlen])
    intro i h1 h2
    simp only [List.getElem_map]
    have h1' : i < G.vertices.length := by simpa using h1
    have h2' : i < H.vertices.length := by simpa using h2
    have := cyclicEqB_length (hpair i h1')
    rwa [List.getD_eq_getElem _ _ h1', List.getD_eq_getElem _ _ h2'] at this
  have hpvmem : idPv ∈ candidatePvs G H := by
    unfold candidatePvs
    refine List.mem_filter.mpr ⟨?_, ?_⟩
    · rw [hidPv]
      exact self_mem_permsOf _
    · rw [List.all_eq_true]
      intro j hj
      have hjV : j < G.vertices.length := List.mem_range.mp hj
      rw [hpvD j hjV]
      exact beq_iff_eq.mpr (cyclicEqB_length (hpair j hjV))
  have hshmem : shifts ∈ shiftVectors G := by
    unfold shiftVectors
    apply listProd_mem
    · rw [hshifts]
      simp
    · intro i hi
      have hiV : i < G.vertices.length := by simpa using hi
      rw [hsh i hiV]
      have hD : (G.vertices.map (fun v => List.range v.length)).getD i [] =
          List.range (G.vertices.getD i []).length := by
        rw [List.getD_eq_getElem _ _ (by simpa using hiV), List.getElem_map,
          List.getD_eq_getElem _ _ hiV]
      rw [hD]
      apply List.mem_range.mpr
      have := (hrot i hiV).2
      rwa [hsh i hiV] at this
  intro hcontra
  unfold isomorphisms_to at hcontra
  rw [if_pos hval] at hcontra
  have hmem : (idPv, shifts, pe) ∈ (candidatePvs G H).flatMap (fun pv =>
      (shiftVectors G).filterMap (fun sh => acceptCandidate G H pv sh)) :=
    List.mem_flatMap.mpr ⟨idPv, hpvmem, List.mem_filterMap.mpr ⟨shifts, hshmem, hacc⟩⟩
  rw [hcontra] at hmem
  exact absurd hmem (List.not_mem_nil _)

theorem engine_empty_of_edges_ne (G H : Graph) (hne : G.num_edges ≠ H.num_edges) :
    isomorphisms_to G H = [] := by
  unfold isomorphisms_to
  by_cases hval : vertexValences G = vertexValences H
  · rw [if_pos hval]
    apply List.eq_nil_iff_forall_not_mem.mpr
    intro iso hiso
    rcases List.mem_flatMap.mp hiso with ⟨pv, -, hmem2⟩
    rcases List.mem_filterMap.mp hmem2 with ⟨sh, -, hacc⟩
    unfold acceptCandidate at hacc
    rcases hbp : buildPe G H pv sh with _ | pe
    · rw [hbp] at hacc
      exact Option.noConfusion hacc
    · rw [hbp] at hacc
      dsimp only at hacc
      by_cases h1 : pe.length > 0
      · rw [if_pos h1] at hacc
        by_cases h2 : adjacencyOk G H pv pe = true
        · unfold adjacencyOk at h2
          rw [Bool.and_eq_true] at h2
          exact hne (beq_iff_eq.mp h2.1).symm
        · rw [if_neg h2] at hacc
          exact Option.noConfusion hacc
      · rw [if_neg h1] at hacc
        exact Option.noConfusion hacc
  · rw [if_neg hval]

/-- C6.  `Graph.__eq__` (rg.py lines 324-421) returns `True` exactly when
`Graph.isomorphisms_to` (rg.py lines 922-1066) yields at least one
isomorphism, for graphs satisfying the constructor invariants (non-empty
vertices per the spec's construction precondition, and a numbering — when
present — labelling every boundary cycle, as `MakeNumberedGraphs` produces).
The cheap `False` shortcuts (edge count, vertex count, valence multiset) are
covered because a mismatch makes the isomorphism search yield nothing, and
the cheap `True` shortcut (equal vertices, endpoints, numbering) is covered
because in that case an explicit isomorphism (identity vertex map with
aligning rotations) is among the yields.  In particular — second through
fourth conjuncts — the doctest pairs behave as the claim says: two graphs
built from different edge-label sequences that are rotations/relabelings of
one another compare equal with a non-empty isomorphism list, and graphs with
the same valences but inequivalent ribbon structure, or different valence
multisets, compare unequal. -/
theorem C6_graph_eq_iff_isomorphisms :
    (∀ G H : Graph, graphWF G = true → graphWF H = true →
      (∀ v ∈ G.vertices, v ≠ []) → numberingWF G = true →
      (graphEq G H = true ↔ isomorphisms_to G H ≠ [])) ∧
    (graphEq (mkGraph [[1, 0, 0, 1]]) (mkGraph [[1, 1, 0, 0]]) = true ∧
      isomorphisms_to (mkGraph [[1, 0, 0, 1]]) (mkGraph [[1, 1, 0, 0]]) ≠ []) ∧
    (graphEq (mkGraph [[2, 0, 1], [2, 0, 1]]) (mkGraph [[2, 0, 0], [2, 1, 1]]) = false ∧
      isomorphisms_to (mkGraph [[2, 0, 1], [2, 0, 1]]) (mkGraph [[2, 0, 0], [2, 1, 1]]) = []) ∧
    graphEq (mkGraph [[2, 0, 0], [2, 1, 1]]) (mkGraph [[1, 1, 0, 0]]) = false := by
  refine ⟨?_, by decide, by decide, by decide⟩
  intro G H hWFG hWFH hGv hnG
  unfold graphEq
  by_cases h1 : G.num_edges ≠ H.num_edges ∨ G.num_vertices ≠ H.num_vertices ∨
      vertexValences G ≠ vertexValences H
  · rw [if_pos h1]
    constructor
    · intro h
      exact absurd h (by simp)
    · intro hne
      exfalso
      apply hne
      by_cases hval : vertexValences G = vertexValences H
      · rcases h1 with hE | hV | hv
        · exact engine_empty_of_edges_ne G H hE
        · exfalso
          apply hV
          have hcard := congrArg List.length hval
          simp only [vertexValences, List.length_insertionSort, List.length_map] at hcard
          obtain ⟨-, hnvG, -, -⟩ := wf_parts hWFG
          obtain ⟨-, hnvH, -, -⟩ := wf_parts hWFH
          omega
        · exact absurd hval hv
      · unfold isomorphisms_to
        rw [if_neg hval]
  · rw [if_neg h1]
    push_neg at h1
    obtain ⟨hE, -, -⟩ := h1
    by_cases h2 : (verticesEq G.vertices H.vertices && (G.endpoints == H.endpoints) &&
        numberingDictEq G.numbering H.numbering) = true
    · rw [if_pos h2]
      simp only [Bool.and_eq_true, beq_iff_eq] at h2
      obtain ⟨⟨hvv, hee⟩, hnn⟩ := h2
      constructor
      · intro _h
        exact engine_nonempty_of_shortcut2 G H hWFH hGv hnG hE hvv hee hnn
      · intro _h
        rfl
    · rw [if_neg h2]
      constructor
      · intro h hnil
        rw [hnil] at h
        simp at h
      · intro h
        cases hl : isomorphisms_to G H with
        | nil => exact absurd hl h
        | cons a t => simp [hl]

/-- Witness for C6: the main equivalence applied to the one-vertex torus
graph `Graph([Vertex([1,0,1,0])])` against itself. -/
theorem C6_graph_eq_iff_isomorphisms_witness :
    (graphWF (mkGraph [[1, 0, 1, 0]]) = true ∧
      (∀ v ∈ (mkGraph [[1, 0, 1, 0]]).vertices, v ≠ []) ∧
      numberingWF (mkGraph [[1, 0, 1, 0]]) = true) ∧
    (graphEq (mkGraph [[1, 0, 1, 0]]) (mkGraph [[1, 0, 1, 0]]) = true ↔
      isomorphisms_to (mkGraph [[1, 0, 1, 0]]) (mkGraph [[1, 0, 1, 0]]) ≠ []) :=
  ⟨⟨by decide, by decide, by decide⟩,
    C6_graph_eq_iff_isomorphisms.1 (mkGraph [[1, 0, 1, 0]]) (mkGraph [[1, 0, 1, 0]])
      (by decide) (by decide) (by decide) (by decide)⟩

theorem count_join (c : ℤ) : ∀ l : List (List ℤ),
    (l.join).count c = (l.map (fun v => v.count c)).sum := by
  intro l
  induction l with
  | nil => rfl
  | cons v rest ih => simp [List.join, List.count_append, ih]

theorem count_rotate (c : ℤ) (s : ℕ) (v : List ℤ) :
    (rotate s v).count c = v.count c := by
  unfold rotate
  rw [List.count_append]
  conv_rhs => rw [← List.take_append_drop s v, List.count_append]
  omega

theorem mem_rotate {c : ℤ} {s : ℕ} {v : List ℤ} :
    c ∈ rotate s v ↔ c ∈ v := by
  constructor <;> intro h
  · have := List.count_pos_iff_mem.mpr h
    rw [count_rotate] at this
    exact List.count_pos_iff_mem.mp this
  · have := List.count_pos_iff_mem.mpr h
    rw [← count_rotate c s v] at this
    exact List.count_pos_iff_mem.mp this

theorem sum_map_set (f : List ℤ → ℕ) : ∀ (l : List (List ℤ)) (i : ℕ) (x : List ℤ),
    i < l.length →
    ((l.set i x).map f).sum + f (l.getD i []) = (l.map f).sum + f x := by
  intro l
  induction l with
  | nil => intro i x h; simp at h
  | cons v rest ih =>
      intro i x h
      cases i with
      | zero => simp [List.set]; omega
      | succ i =>
          simp only [List.set, List.map_cons, List.sum_cons, List.getD_cons_succ]
          have := ih i x (by simpa using h)
          omega

theorem sum_map_eraseIdx (f : List ℤ → ℕ) : ∀ (l : List (List ℤ)) (i : ℕ),
    i < l.length →
    ((l.eraseIdx i).map f).sum + f (l.getD i []) = (l.map f).sum := by
  intro l
  induction l with
  | nil => intro i h; simp at h
  | cons v rest ih =>
      intro i h
      cases i with
      | zero => simp [List.eraseIdx]; omega
      | succ i =>
          simp only [List.eraseIdx, List.map_cons, List.sum_cons, List.getD_cons_succ]
          have := ih i (by simpa using h)
          omega

theorem count_filterMap_unique (f : ℤ → Option ℤ) (c p : ℤ)
    (hf : ∀ x : ℤ, f x = some c ↔ x = p) :
    ∀ l : List ℤ, (l.filterMap f).count c = l.count p := by
  intro l
  induction l with
  | nil => rfl
  | cons x rest ih =>
      rw [List.filterMap_cons]
      rcases hfx : f x with _ | y
      · have hxp : x ≠ p := by
          intro h
          rw [(hf x).mpr h] at hfx
          exact Option.noConfusion hfx
        rw [List.count_cons]
        simp only [beq_iff_eq, if_neg hxp, ih, Nat.add_zero]
      · rw [List.count_cons, List.count_cons, ih]
        simp only [beq_iff_eq]
        by_cases hyc : y = c
        · subst hyc
          have hxp : x = p := (hf x).mp hfx
          rw [if_pos rfl, if_pos hxp]
        · have hxp : x ≠ p := by
            intro h
            have h2 := (hf x).mpr h
            rw [hfx] at h2
            exact hyc (by injection h2)
          rw [if_neg hyc, if_neg hxp]

theorem join_map_filterMap (f : ℤ → Option ℤ) : ∀ l : List (List ℤ),
    ((l.map (List.filterMap f)).join) = (l.join).filterMap f := by
  intro l
  induction l with
  | nil => rfl
  | cons v rest ih =>
      simp only [List.join] at ih ⊢
      rw [List.map_cons, List.flatten_cons, List.flatten_cons, List.filterMap_append, ih]

theorem getD_eraseIdx {α : Type} (l : List α) (i j : ℕ) (d : α)
    (hi : i < l.length) (hj : j < l.length - 1) :
    (l.eraseIdx i).getD j d = if j < i then l.getD j d else l.getD (j + 1) d := by
  rw [List.eraseIdx_eq_take_drop_succ]
  by_cases h : j < i
  · rw [if_pos h]
    rw [List.getD_append _ _ _ _ (by rw [List.length_take]; omega)]
    rw [List.getD_eq_getElem _ _ (by rw [List.length_take]; omega)]
    rw [List.getElem_take]
    rw [List.getD_eq_getElem _ _ (by omega)]
  · rw [if_neg h]
    rw [List.getD_append_right _ _ _ _ (by rw [List.length_take]; omega)]
    rw [List.length_take]
    have hmin : min i l.length = i := by omega
    rw [hmin]
    rw [List.getD_eq_getElem _ _ (by rw [List.length_drop]; omega)]
    rw [List.getElem_drop]
    rw [List.getD_eq_getElem _ _ (by omega)]
    congr 1
    omega

theorem getD_set_of_lt {α : Type} (l : List α) (i j : ℕ) (x : α) (d : α)
    (hj : j < l.length) :
    (l.set i x).getD j d = if i = j then x else l.getD j d := by
  rw [List.getD_eq_getElem _ _ (by rw [List.length_set]; exact hj)]
  rw [List.getElem_set]
  by_cases h : i = j
  · rw [if_pos h, if_pos h]
  · rw [if_neg h, if_neg h, List.getD_eq_getElem _ _ hj]

theorem getD_map_list {α β : Type} (f : α → β) (l : List α) (i : ℕ) (d : β) (d' : α)
    (hi : i < l.length) :
    (l.map f).getD i d = f (l.getD i d') := by
  rw [List.getD_eq_getElem _ _ (by rw [List.length_map]; exact hi)]
  rw [List.getElem_map, List.getD_eq_getElem _ _ hi]

theorem mem_enum_take {α : Type} (l : List α) (n : ℕ) (d : α) (x : ℕ × α)
    (hn : n ≤ l.length) :
    x ∈ (l.take n).enum ↔ x.1 < n ∧ x.2 = l.getD x.1 d := by
  rw [List.mem_enum_iff_getElem?, List.getElem?_take]
  constructor
  · intro h
    by_cases hx : x.1 < n
    · rw [if_pos hx] at h
      refine ⟨hx, ?_⟩
      rw [List.getD_eq_getElem _ _ (by omega)]
      rw [List.getElem?_eq_getElem (by omega)] at h
      exact (Option.some_inj.mp h).symm
    · rw [if_neg hx] at h
      exact absurd h (by simp)
  · intro ⟨h1, h2⟩
    rw [if_pos h1, List.getElem?_eq_getElem (by omega), Option.some_inj]
    rw [List.getD_eq_getElem _ _ (by omega)] at h2
    exact h2.symm

theorem mem_enum_drop {α : Type} (l : List α) (n : ℕ) (d : α) (x : ℕ × α) :
    x ∈ (l.drop n).enum ↔ n + x.1 < l.length ∧ x.2 = l.getD (n + x.1) d := by
  rw [List.mem_enum_iff_getElem?, List.getElem?_drop]
  constructor
  · intro h
    have hlt : n + x.1 < l.length := by
      by_contra hge
      rw [List.getElem?_eq_none (by omega)] at h
      exact Option.noConfusion h
    refine ⟨hlt, ?_⟩
    rw [List.getElem?_eq_getElem hlt] at h
    rw [List.getD_eq_getElem _ _ hlt]
    exact (Option.some_inj.mp h).symm
  · intro ⟨h1, h2⟩
    rw [List.getElem?_eq_getElem h1, Option.some_inj]
    rw [List.getD_eq_getElem _ _ h1] at h2
    exact h2.symm

theorem rv_lt (i1 i2 V : ℕ) (h12 : i1 < i2) (h2V : i2 < V) :
    ∀ i, i < V → rvTranslate i1 i2 V i < V - 1 := by
  intro i hi
  unfold rvTranslate
  by_cases he : i = i2
  · rw [if_pos he]; omega
  · rw [if_neg he]
    by_cases hs : i2 + 1 ≤ i ∧ i ≤ V
    · rw [if_pos hs]; omega
    · rw [if_neg hs]; omega

theorem okB_facts {G : Graph} (hok : okB G = true)
    (hlen : G.endpoints.length = G.num_edges + G.num_external_edges) :
    (0 < G.num_edges) ∧
    (∀ c, c < G.num_edges → ∃ a b,
       G.endpoints.getD c (none, none) = (some a, some b) ∧
       a < G.num_vertices ∧ b < G.num_vertices ∧
       ((c : ℤ)) ∈ G.vertices.getD a [] ∧ ((c : ℤ)) ∈ G.vertices.getD b []) ∧
    (∀ k, k < G.num_external_edges → ∃ a,
       G.endpoints.getD (G.num_edges + k) (none, none) = (some a, none) ∧
       a < G.num_vertices ∧
       (-(G.num_external_edges : ℤ) + (k : ℤ)) ∈ G.vertices.getD a []) ∧
    (∀ s, s < G.num_edges + G.num_external_edges →
       (flatColors G).count (s : ℤ) +
       (flatColors G).count ((s : ℤ) - ((G.num_edges + G.num_external_edges : ℕ) : ℤ)) =
       if s < G.num_edges then 2 else 1) := by
  unfold okB at hok
  simp only [Bool.and_eq_true, decide_eq_true_eq, List.all_eq_true] at hok
  obtain ⟨⟨⟨⟨hE, hint⟩, hext⟩, hrng⟩, hcnt⟩ := hok
  refine ⟨hE, ?_, ?_, ?_⟩
  · intro c hc
    have hmem : ((c, G.endpoints.getD c (none, none)) : ℕ × (Option ℕ × Option ℕ)) ∈
        (G.endpoints.take G.num_edges).enum :=
      (mem_enum_take _ _ (none, none) _ (by omega)).mpr ⟨hc, rfl⟩
    have h := hint _ hmem
    rcases hgd : G.endpoints.getD c (none, none) with ⟨o1, o2⟩
    rw [hgd] at h
    rcases o1 with _ | a <;> rcases o2 with _ | b
    · exact absurd h (by simp)
    · exact absurd h (by simp)
    · exact absurd h (by simp)
    · simp only [Bool.and_eq_true, decide_eq_true_eq] at h
      obtain ⟨⟨⟨ha, hb⟩, hca⟩, hcb⟩ := h
      exact ⟨a, b, rfl, ha, hb, by simpa using hca, by simpa using hcb⟩
  · intro k hk
    have hmem : ((k, G.endpoints.getD (G.num_edges + k) (none, none)) :
        ℕ × (Option ℕ × Option ℕ)) ∈ (G.endpoints.drop G.num_edges).enum :=
      (mem_enum_drop _ _ (none, none) _).mpr ⟨by omega, rfl⟩
    have h := hext _ hmem
    rcases hgd : G.endpoints.getD (G.num_edges + k) (none, none) with ⟨o1, o2⟩
    rw [hgd] at h
    rcases o1 with _ | a <;> rcases o2 with _ | b
    · exact absurd h (by simp)
    · exact absurd h (by simp)
    · simp only [Bool.and_eq_true, decide_eq_true_eq] at h
      obtain ⟨ha, hca⟩ := h
      exact ⟨a, rfl, ha, by simpa using hca⟩
    · exact absurd h (by simp)
  · intro s hs
    have h := hcnt s (List.mem_range.mpr hs)
    by_cases hsE : s < G.num_edges
    · rw [if_pos hsE] at h ⊢
      simpa using h
    · rw [if_neg hsE] at h ⊢
      simpa using h

theorem ren_eq_some_low {e E : ℕ} (c : ℕ) (hc : c < e) (x : ℤ) :
    itranslateE e E x = some (c : ℤ) ↔ x = (c : ℤ) := by
  unfold itranslateE
  by_cases h1 : x = (e : ℤ)
  · rw [if_pos h1]
    constructor
    · intro h; exact absurd h (by simp)
    · intro h; omega
  · rw [if_neg h1]
    by_cases h2 : (e : ℤ) + 1 ≤ x ∧ x ≤ (E : ℤ)
    · rw [if_pos h2, Option.some_inj]
      constructor <;> intro h <;> omega
    · rw [if_neg h2, Option.some_inj]

theorem ren_eq_some_high {e E : ℕ} (c : ℕ) (hce : e ≤ c) (hcE : c < E - 1) (x : ℤ) :
    itranslateE e E x = some (c : ℤ) ↔ x = (c : ℤ) + 1 := by
  unfold itranslateE
  by_cases h1 : x = (e : ℤ)
  · rw [if_pos h1]
    constructor
    · intro h; exact absurd h (by simp)
    · intro h; omega
  · rw [if_neg h1]
    by_cases h2 : (e : ℤ) + 1 ≤ x ∧ x ≤ (E : ℤ)
    · rw [if_pos h2, Option.some_inj]
      constructor <;> intro h <;> omega
    · rw [if_neg h2, Option.some_inj]
      constructor <;> intro h <;> omega

theorem ren_eq_some_neg {e E : ℕ} (c : ℤ) (hc : c < 0) (x : ℤ) :
    itranslateE e E x = some c ↔ x = c := by
  unfold itranslateE
  by_cases h1 : x = (e : ℤ)
  · rw [if_pos h1]
    constructor
    · intro h; exact absurd h (by simp)
    · intro h; omega
  · rw [if_neg h1]
    by_cases h2 : (e : ℤ) + 1 ≤ x ∧ x ≤ (E : ℤ)
    · rw [if_pos h2, Option.some_inj]
      constructor <;> intro h <;> omega
    · rw [if_neg h2, Option.some_inj]

theorem ren_image_range {G : Graph} (hWF : graphWF G = true) {e : ℕ}
    (he : e < G.num_edges) :
    ∀ y ∈ (flatColors G).filterMap (itranslateE e G.num_edges),
      -(G.num_external_edges : ℤ) ≤ y ∧ y < (G.num_edges : ℤ) - 1 := by
  intro y hy
  obtain ⟨-, -, -, hcol⟩ := wf_parts hWF
  rw [List.mem_filterMap] at hy
  obtain ⟨x, hx, hren⟩ := hy
  have hb := hcol x hx
  unfold itranslateE at hren
  by_cases h1 : x = (e : ℤ)
  · rw [if_pos h1] at hren; exact absurd hren (by simp)
  · rw [if_neg h1] at hren
    by_cases h2 : (e : ℤ) + 1 ≤ x ∧ x ≤ (G.num_edges : ℤ)
    · rw [if_pos h2, Option.some_inj] at hren; omega
    · rw [if_neg h2, Option.some_inj] at hren; omega

theorem okB_of_facts (G : Graph)
    (hlen : G.endpoints.length = G.num_edges + G.num_external_edges)
    (hE : 0 < G.num_edges)
    (hint : ∀ c, c < G.num_edges → ∃ a b,
       G.endpoints.getD c (none, none) = (some a, some b) ∧
       a < G.num_vertices ∧ b < G.num_vertices ∧
       ((c : ℤ)) ∈ G.vertices.getD a [] ∧ ((c : ℤ)) ∈ G.vertices.getD b [])
    (hext : ∀ k, k < G.num_external_edges → ∃ a,
       G.endpoints.getD (G.num_edges + k) (none, none) = (some a, none) ∧
       a < G.num_vertices ∧
       (-(G.num_external_edges : ℤ) + (k : ℤ)) ∈ G.vertices.getD a [])
    (hrng : ∀ x ∈ flatColors G,
       -((G.num_edges + G.num_external_edges : ℕ) : ℤ) ≤ x ∧
       x < ((G.num_edges + G.num_external_edges : ℕ) : ℤ))
    (hcnt : ∀ s, s < G.num_edges + G.num_external_edges →
       (flatColors G).count (s : ℤ) +
       (flatColors G).count ((s : ℤ) - ((G.num_edges + G.num_external_edges : ℕ) : ℤ)) =
       if s < G.num_edges then 2 else 1) :
    okB G = true := by
  unfold okB
  simp only [Bool.and_eq_true, decide_eq_true_eq, List.all_eq_true]
  refine ⟨⟨⟨⟨hE, ?_⟩, ?_⟩, ?_⟩, ?_⟩
  · intro x hx
    obtain ⟨c, entry⟩ := x
    rw [mem_enum_take _ _ (none, none) _ (by omega)] at hx
    obtain ⟨hx1, hx2⟩ := hx
    obtain ⟨a, b, hab, ha, hb, hma, hmb⟩ := hint c hx1
    simp only at hx2
    rw [hx2, hab]
    simp only [Bool.and_eq_true, decide_eq_true_eq]
    exact ⟨⟨⟨ha, hb⟩, by simpa using hma⟩, by simpa using hmb⟩
  · intro x hx
    obtain ⟨k, entry⟩ := x
    rw [mem_enum_drop _ _ (none, none) _] at hx
    obtain ⟨hx1, hx2⟩ := hx
    obtain ⟨a, hab, ha, hma⟩ := hext k (by omega)
    simp only at hx2
    rw [hx2, hab]
    simp only [Bool.and_eq_true, decide_eq_true_eq]
    exact ⟨ha, by simpa using hma⟩
  · intro x hx
    exact hrng x hx
  · intro s hs
    rw [List.mem_range] at hs
    have h := hcnt s hs
    by_cases hsE : s < G.num_edges
    · rw [if_pos hsE] at h ⊢
      simpa using h
    · rw [if_neg hsE] at h ⊢
      simpa using h

theorem contract_eq_of_internal {G : Graph} {e a b : ℕ}
    (he : e < G.num_edges)
    (hlen : G.endpoints.length = G.num_edges + G.num_external_edges)
    (hep : G.endpoints.getD e (none, none) = (some a, some b)) (hab : a ≠ b) :
    contract G e =
      (if okB (contractedGraph G e a b) then Except.ok (contractedGraph G e a b)
       else Except.error "Graph.__init__: assertion failed (_ok)") := by
  have he' : e < G.endpoints.length := by omega
  have hget : G.endpoints.get ⟨e, he'⟩ = (some a, some b) := by
    rw [List.get_eq_getElem, ← List.getD_eq_getElem G.endpoints (none, none) he']
    exact hep
  unfold contract
  rw [dif_pos he']
  dsimp only
  rw [hget]
  dsimp only
  rw [if_neg (by simp [hab] : ¬((some a : Option ℕ) = some b))]
  rw [if_neg (by simp : ¬((some a : Option ℕ) = none ∨ (some b : Option ℕ) = none))]
  rw [if_pos he]
  rfl

theorem contractedVertices_length (G : Graph) (e i1 i2 : ℕ)
    (h2V : i2 < G.vertices.length) :
    (contractedVertices G e i1 i2).length = G.vertices.length - 1 := by
  unfold contractedVertices
  dsimp only
  rw [List.length_eraseIdx, List.length_set, List.length_map]
  rw [if_pos h2V]

theorem contractedEndpoints_length (G : Graph) (e i1 i2 : ℕ)
    (he : e < G.endpoints.length) :
    (contractedEndpoints G e i1 i2).length = G.endpoints.length - 1 := by
  unfold contractedEndpoints
  dsimp only
  rw [List.length_eraseIdx, List.length_map]
  rw [if_pos he]

theorem contractedEndpoints_getD (G : Graph) (e i1 i2 c : ℕ)
    (he : e < G.endpoints.length) (hc : c < G.endpoints.length - 1) :
    (contractedEndpoints G e i1 i2).getD c (none, none) =
      ((G.endpoints.getD (if c < e then c else c + 1) (none, none)).1.map
         (rvTranslate i1 i2 G.num_vertices),
       (G.endpoints.getD (if c < e then c else c + 1) (none, none)).2.map
         (rvTranslate i1 i2 G.num_vertices)) := by
  unfold contractedEndpoints
  dsimp only
  rw [getD_eraseIdx _ e c _ (by rw [List.length_map]; omega) (by rw [List.length_map]; omega)]
  by_cases hce : c < e
  · rw [if_pos hce, if_pos hce]
    rw [getD_map_list _ _ _ _ (none, none) (by omega)]
  · rw [if_neg hce, if_neg hce]
    rw [getD_map_list _ _ _ _ (none, none) (by omega)]

theorem contractedVertices_count (G : Graph) (e i1 i2 : ℕ) (c : ℤ)
    (h12 : i1 < i2) (h2V : i2 < G.vertices.length) :
    ((contractedVertices G e i1 i2).join).count c =
    ((flatColors G).filterMap (itranslateE e G.num_edges)).count c := by
  unfold contractedVertices
  dsimp only
  set ren := itranslateE e G.num_edges with hren
  set nv0 := G.vertices.map (fun v => v.filterMap ren) with hnv0
  have hlen0 : nv0.length = G.vertices.length := by
    rw [hnv0, List.length_map]
  set pos1 := indexOf (G.vertices.getD i1 []) (e : ℤ)
  set pos2 := indexOf (G.vertices.getD i2 []) (e : ℤ)
  set v1 := nv0.getD i1 [] with hv1
  set v2 := nv0.getD i2 [] with hv2
  set v1r := if 0 < pos1 ∧ pos1 < v1.length then rotate pos1 v1 else v1 with hv1r
  set v2r := if 0 < pos2 ∧ pos2 < v2.length then rotate pos2 v2 else v2 with hv2r
  set A := nv0.set i1 (v1r ++ v2r) with hA
  have hlenA : A.length = nv0.length := by
    rw [hA, List.length_set]
  have hr1 : v1r.count c = v1.count c := by
    rw [hv1r]
    by_cases hc1 : 0 < pos1 ∧ pos1 < v1.length
    · rw [if_pos hc1, count_rotate]
    · rw [if_neg hc1]
  have hr2 : v2r.count c = v2.count c := by
    rw [hv2r]
    by_cases hc2 : 0 < pos2 ∧ pos2 < v2.length
    · rw [if_pos hc2, count_rotate]
    · rw [if_neg hc2]
  have hA2 : A.getD i2 [] = v2 := by
    rw [hA, getD_set_of_lt _ _ _ _ _ (by omega), if_neg (by omega)]
  have h1 : ((A.eraseIdx i2).map (fun v => List.count c v)).sum + List.count c v2 =
      (A.map (fun v => List.count c v)).sum := by
    have h := sum_map_eraseIdx (fun v => v.count c) A i2 (by omega)
    rw [hA2] at h
    exact h
  have h2 : (A.map (fun v => List.count c v)).sum + List.count c v1 =
      (nv0.map (fun v => List.count c v)).sum + (List.count c v1 + List.count c v2) := by
    have h := sum_map_set (fun v => v.count c) nv0 i1 (v1r ++ v2r) (by omega)
    rw [← hA, ← hv1] at h
    rw [show ((fun v => List.count c v) (v1r ++ v2r)) = List.count c (v1r ++ v2r) from rfl] at h
    rw [List.count_append, hr1, hr2] at h
    exact h
  have hfm : nv0.join = (flatColors G).filterMap ren := by
    rw [hnv0]
    exact join_map_filterMap ren G.vertices
  rw [count_join, ← hfm, count_join]
  omega

theorem contractedVertices_mem (G : Graph) (e i1 i2 : ℕ) (c : ℤ)
    (h12 : i1 < i2) (h2V : i2 < G.vertices.length) :
    c ∈ (contractedVertices G e i1 i2).join ↔
    c ∈ (flatColors G).filterMap (itranslateE e G.num_edges) := by
  rw [← List.count_pos_iff_mem, ← List.count_pos_iff_mem,
    contractedVertices_count G e i1 i2 c h12 h2V]

theorem contractedVertices_getD_mem (G : Graph) (e i1 i2 : ℕ)
    (h12 : i1 < i2) (h2V : i2 < G.vertices.length)
    (hV : G.vertices.length ≤ G.num_vertices)
    (i : ℕ) (hi : i < G.vertices.length) (y : ℤ)
    (hy : y ∈ (G.vertices.getD i []).filterMap (itranslateE e G.num_edges)) :
    y ∈ (contractedVertices G e i1 i2).getD (rvTranslate i1 i2 G.num_vertices i) [] := by
  unfold contractedVertices
  dsimp only
  set ren := itranslateE e G.num_edges with hren
  set nv0 := G.vertices.map (fun v => v.filterMap ren) with hnv0
  have hlen0 : nv0.length = G.vertices.length := by
    rw [hnv0, List.length_map]
  set pos1 := indexOf (G.vertices.getD i1 []) (e : ℤ)
  set pos2 := indexOf (G.vertices.getD i2 []) (e : ℤ)
  set v1 := nv0.getD i1 [] with hv1
  set v2 := nv0.getD i2 [] with hv2
  set v1r := if 0 < pos1 ∧ pos1 < v1.length then rotate pos1 v1 else v1 with hv1r
  set v2r := if 0 < pos2 ∧ pos2 < v2.length then rotate pos2 v2 else v2 with hv2r
  set A := nv0.set i1 (v1r ++ v2r) with hA
  have hlenA : A.length = nv0.length := by
    rw [hA, List.length_set]
  have hnv0i : nv0.getD i [] = (G.vertices.getD i []).filterMap ren := by
    rw [hnv0, getD_map_list _ _ _ _ [] hi]
  have hmem1 : ∀ z : ℤ, z ∈ v1 → z ∈ v1r := by
    intro z hz
    rw [hv1r]
    by_cases hc1 : 0 < pos1 ∧ pos1 < v1.length
    · rw [if_pos hc1]; exact mem_rotate.mpr hz
    · rw [if_neg hc1]; exact hz
  have hmem2 : ∀ z : ℤ, z ∈ v2 → z ∈ v2r := by
    intro z hz
    rw [hv2r]
    by_cases hc2 : 0 < pos2 ∧ pos2 < v2.length
    · rw [if_pos hc2]; exact mem_rotate.mpr hz
    · rw [if_neg hc2]; exact hz
  have hAi1 : A.getD i1 [] = v1r ++ v2r := by
    rw [hA, getD_set_of_lt _ _ _ _ _ (by omega), if_pos rfl]
  by_cases hii2 : i = i2
  · have hrv : rvTranslate i1 i2 G.num_vertices i = i1 := by
      unfold rvTranslate
      rw [if_pos hii2]
    rw [hrv]
    rw [getD_eraseIdx A i2 i1 [] (by omega) (by omega), if_pos h12, hAi1]
    refine List.mem_append.mpr (Or.inr (hmem2 y ?_))
    rw [hv2, ← hii2, hnv0i]
    exact hy
  · by_cases hii1 : i = i1
    · have hrv : rvTranslate i1 i2 G.num_vertices i = i1 := by
        unfold rvTranslate
        rw [if_neg (by omega : ¬(i = i2)), if_neg (by omega)]
        exact hii1
      rw [hrv]
      rw [getD_eraseIdx A i2 i1 [] (by omega) (by omega), if_pos h12, hAi1]
      refine List.mem_append.mpr (Or.inl (hmem1 y ?_))
      rw [hv1, ← hii1, hnv0i]
      exact hy
    · have hAi : A.getD i [] = nv0.getD i [] := by
        rw [hA, getD_set_of_lt _ _ _ _ _ (by omega), if_neg (fun h => hii1 h.symm)]
      by_cases hlt : i < i2
      · have hrv : rvTranslate i1 i2 G.num_vertices i = i := by
          unfold rvTranslate
          rw [if_neg hii2, if_neg (by omega)]
        rw [hrv]
        rw [getD_eraseIdx A i2 i [] (by omega) (by omega), if_pos hlt, hAi, hnv0i]
        exact hy
      · have hgt : i2 < i := by omega
        have hrv : rvTranslate i1 i2 G.num_vertices i = i - 1 := by
          unfold rvTranslate
          rw [if_neg hii2, if_pos (by omega)]
        rw [hrv]
        rw [getD_eraseIdx A i2 (i - 1) [] (by omega) (by omega), if_neg (by omega)]
        have hidx : i - 1 + 1 = i := by omega
        rw [hidx, hAi, hnv0i]
        exact hy

theorem contracted_okB {G : Graph} {e a b : ℕ} (hWF : graphWF G = true)
    (he : e < G.num_edges) (hE2 : 2 ≤ G.num_edges)
    (hep : G.endpoints.getD e (none, none) = (some a, some b)) (hab : a ≠ b) :
    okB (contractedGraph G e a b) = true := by
  obtain ⟨hok, hnv, hlen, hcol⟩ := wf_parts hWF
  obtain ⟨hE0, hint, hext, hcnt⟩ := okB_facts hok hlen
  obtain ⟨a', b', hep', ha', hb', hma', hmb'⟩ := hint e he
  rw [hep'] at hep
  injection hep with h1 h2
  injection h1 with haa
  injection h2 with hbb
  rw [haa] at ha' hma'
  rw [hbb] at hb' hmb'
  have h12 : min a b < max a b := by omega
  have h2V : max a b < G.vertices.length := by omega
  have hfV : (contractedGraph G e a b).vertices =
      contractedVertices G e (min a b) (max a b) := rfl
  have hfE : (contractedGraph G e a b).num_edges = G.num_edges - 1 := rfl
  have hfX : (contractedGraph G e a b).num_external_edges = G.num_external_edges := rfl
  have hfnv : (contractedGraph G e a b).num_vertices =
      (contractedVertices G e (min a b) (max a b)).length := rfl
  have hfep : (contractedGraph G e a b).endpoints =
      contractedEndpoints G e (min a b) (max a b) := rfl
  have hflat : flatColors (contractedGraph G e a b) =
      (contractedVertices G e (min a b) (max a b)).join := rfl
  have hVlen : (contractedVertices G e (min a b) (max a b)).length =
      G.vertices.length - 1 := contractedVertices_length _ _ _ _ h2V
  have he' : e < G.endpoints.length := by omega
  apply okB_of_facts
  · rw [hfep, hfE, hfX, contractedEndpoints_length _ _ _ _ he']
    omega
  · rw [hfE]; omega
  · intro c hc
    rw [hfE] at hc
    rw [hfep, contractedEndpoints_getD _ _ _ _ c he' (by omega)]
    by_cases hce : c < e
    · rw [if_pos hce]
      obtain ⟨a2, b2, hepc, ha2, hb2, hm2a, hm2b⟩ := hint c (by omega)
      rw [hepc]
      refine ⟨rvTranslate (min a b) (max a b) G.num_vertices a2,
              rvTranslate (min a b) (max a b) G.num_vertices b2, rfl, ?_, ?_, ?_, ?_⟩
      · rw [hfnv, hVlen]
        have h := rv_lt (min a b) (max a b) G.num_vertices h12 (by omega) a2 (by omega)
        omega
      · rw [hfnv, hVlen]
        have h := rv_lt (min a b) (max a b) G.num_vertices h12 (by omega) b2 (by omega)
        omega
      · rw [hfV]
        apply contractedVertices_getD_mem G e _ _ h12 h2V (by omega) a2 (by omega)
        exact List.mem_filterMap.mpr ⟨(c : ℤ), hm2a, (ren_eq_some_low c hce _).mpr rfl⟩
      · rw [hfV]
        apply contractedVertices_getD_mem G e _ _ h12 h2V (by omega) b2 (by omega)
        exact List.mem_filterMap.mpr ⟨(c : ℤ), hm2b, (ren_eq_some_low c hce _).mpr rfl⟩
    · rw [if_neg hce]
      obtain ⟨a2, b2, hepc, ha2, hb2, hm2a, hm2b⟩ := hint (c + 1) (by omega)
      rw [hepc]
      refine ⟨rvTranslate (min a b) (max a b) G.num_vertices a2,
              rvTranslate (min a b) (max a b) G.num_vertices b2, rfl, ?_, ?_, ?_, ?_⟩
      · rw [hfnv, hVlen]
        have h := rv_lt (min a b) (max a b) G.num_vertices h12 (by omega) a2 (by omega)
        omega
      · rw [hfnv, hVlen]
        have h := rv_lt (min a b) (max a b) G.num_vertices h12 (by omega) b2 (by omega)
        omega
      · rw [hfV]
        apply contractedVertices_getD_mem G e _ _ h12 h2V (by omega) a2 (by omega)
        exact List.mem_filterMap.mpr ⟨((c + 1 : ℕ) : ℤ), hm2a,
          (ren_eq_some_high c (by omega) (by omega) _).mpr (by push_cast; ring)⟩
      · rw [hfV]
        apply contractedVertices_getD_mem G e _ _ h12 h2V (by omega) b2 (by omega)
        exact List.mem_filterMap.mpr ⟨((c + 1 : ℕ) : ℤ), hm2b,
          (ren_eq_some_high c (by omega) (by omega) _).mpr (by push_cast; ring)⟩
  · intro k hk
    rw [hfX] at hk
    rw [hfep, hfE, hfX]
    rw [contractedEndpoints_getD _ _ _ _ (G.num_edges - 1 + k) he' (by omega)]
    rw [if_neg (by omega)]
    have hidx : G.num_edges - 1 + k + 1 = G.num_edges + k := by omega
    rw [hidx]
    obtain ⟨a2, hepk, ha2, hm2⟩ := hext k hk
    rw [hepk]
    refine ⟨rvTranslate (min a b) (max a b) G.num_vertices a2, rfl, ?_, ?_⟩
    · rw [hfnv, hVlen]
      have h := rv_lt (min a b) (max a b) G.num_vertices h12 (by omega) a2 (by omega)
      omega
    · rw [hfV]
      apply contractedVertices_getD_mem G e _ _ h12 h2V (by omega) a2 (by omega)
      exact List.mem_filterMap.mpr ⟨-(G.num_external_edges : ℤ) + (k : ℤ), hm2,
        (ren_eq_some_neg _ (by omega) _).mpr rfl⟩
  · intro x hx
    rw [hflat] at hx
    rw [contractedVertices_mem _ _ _ _ x h12 h2V] at hx
    have hb := ren_image_range hWF he x hx
    rw [hfE, hfX]
    exact ⟨by omega, by omega⟩
  · intro s hs
    rw [hfE, hfX] at hs ⊢
    have hc1 : ∀ c : ℤ, (flatColors (contractedGraph G e a b)).count c =
        ((flatColors G).filterMap (itranslateE e G.num_edges)).count c := by
      intro c
      rw [hflat]
      exact contractedVertices_count _ _ _ _ c h12 h2V
    rw [hc1, hc1]
    have hzero : ∀ c : ℤ, (c < -(G.num_external_edges : ℤ) ∨ (G.num_edges : ℤ) ≤ c) →
        (flatColors G).count c = 0 := by
      intro c hcc
      rw [List.count_eq_zero]
      intro hmem
      have := hcol c hmem
      omega
    have hzfm : ∀ c : ℤ, ((G.num_edges : ℤ) - 1 ≤ c) →
        ((flatColors G).filterMap (itranslateE e G.num_edges)).count c = 0 := by
      intro c hcc
      rw [List.count_eq_zero]
      intro hmem
      have := ren_image_range hWF he c hmem
      omega
    by_cases hsE : s < G.num_edges - 1
    · rw [if_pos hsE]
      have hz2 : ((flatColors G).filterMap (itranslateE e G.num_edges)).count
          ((s : ℤ) - ((G.num_edges - 1 + G.num_external_edges : ℕ) : ℤ)) =
          (flatColors G).count
          ((s : ℤ) - ((G.num_edges - 1 + G.num_external_edges : ℕ) : ℤ)) :=
        count_filterMap_unique _ _ _ (fun x => ren_eq_some_neg _ (by omega) x) (flatColors G)
      have hz3 : (flatColors G).count
          ((s : ℤ) - ((G.num_edges - 1 + G.num_external_edges : ℕ) : ℤ)) = 0 :=
        hzero _ (Or.inl (by omega))
      by_cases hse : s < e
      · have hfs : ((flatColors G).filterMap (itranslateE e G.num_edges)).count (s : ℤ) =
            (flatColors G).count (s : ℤ) :=
          count_filterMap_unique _ _ _ (fun x => ren_eq_some_low s hse x) (flatColors G)
        have hold := hcnt s (by omega)
        rw [if_pos (by omega)] at hold
        have hz1 : (flatColors G).count
            ((s : ℤ) - ((G.num_edges + G.num_external_edges : ℕ) : ℤ)) = 0 :=
          hzero _ (Or.inl (by omega))
        omega
      · have hfs : ((flatColors G).filterMap (itranslateE e G.num_edges)).count (s : ℤ) =
            (flatColors G).count ((s : ℤ) + 1) :=
          count_filterMap_unique _ _ _
            (fun x => ren_eq_some_high s (by omega) (by omega) x) (flatColors G)
        have hold := hcnt (s + 1) (by omega)
        rw [if_pos (by omega)] at hold
        have hcast : (((s + 1 : ℕ)) : ℤ) = (s : ℤ) + 1 := by push_cast; ring
        rw [hcast] at hold
        have hz1 : (flatColors G).count
            ((s : ℤ) + 1 - ((G.num_edges + G.num_external_edges : ℕ) : ℤ)) = 0 :=
          hzero _ (Or.inl (by omega))
        omega
    · rw [if_neg hsE]
      have hf0 : ((flatColors G).filterMap (itranslateE e G.num_edges)).count (s : ℤ) = 0 :=
        hzfm _ (by omega)
      have hz2 : ((flatColors G).filterMap (itranslateE e G.num_edges)).count
          ((s : ℤ) - ((G.num_edges - 1 + G.num_external_edges : ℕ) : ℤ)) =
          (flatColors G).count
          ((s : ℤ) - ((G.num_edges - 1 + G.num_external_edges : ℕ) : ℤ)) :=
        count_filterMap_unique _ _ _ (fun x => ren_eq_some_neg _ (by omega) x) (flatColors G)
      have hold := hcnt (s + 1) (by omega)
      rw [if_neg (by omega)] at hold
      have hcast : (((s + 1 : ℕ)) : ℤ) = (s : ℤ) + 1 := by push_cast; ring
      rw [hcast] at hold
      have harg : (s : ℤ) + 1 - ((G.num_edges + G.num_external_edges : ℕ) : ℤ) =
          (s : ℤ) - ((G.num_edges - 1 + G.num_external_edges : ℕ) : ℤ) := by omega
      rw [harg] at hold
      have hz1 : (flatColors G).count ((s : ℤ) + 1) = 0 :=
        hzero _ (Or.inr (by omega))
      omega

theorem contract_loop_error {G : Graph} {e : ℕ} {p : Option ℕ × Option ℕ}
    (he' : e < G.endpoints.length)
    (hep : G.endpoints.getD e (none, none) = p) (hlp : p.1 = p.2) :
    contract G e = Except.error "Graph.contract: cannot contract a loop." := by
  have hget : G.endpoints.get ⟨e, he'⟩ = p := by
    rw [List.get_eq_getElem, ← List.getD_eq_getElem G.endpoints (none, none) he']
    exact hep
  unfold contract
  rw [dif_pos he']
  dsimp only
  rw [hget]
  rw [if_pos hlp]

theorem contract_external_error {G : Graph} {e : ℕ} {p : Option ℕ × Option ℕ}
    (he' : e < G.endpoints.length)
    (hep : G.endpoints.getD e (none, none) = p)
    (hnl : ¬ p.1 = p.2) (hx : p.1 = none ∨ p.2 = none) :
    contract G e = Except.error "Graph.contract: cannot contract an external edge." := by
  have hget : G.endpoints.get ⟨e, he'⟩ = p := by
    rw [List.get_eq_getElem, ← List.getD_eq_getElem G.endpoints (none, none) he']
    exact hep
  unfold contract
  rw [dif_pos he']
  dsimp only
  rw [hget]
  rw [if_neg hnl]
  rw [if_pos hx]

theorem contract_oob {G : Graph} {e : ℕ} (h : ¬ e < G.endpoints.length) :
    contract G e = Except.error "IndexError: list index out of range" := by
  unfold contract
  rw [dif_neg h]

/-- **C8.** Amended failure condition of `Graph.contract` (rg.py lines
565-714): for a well-formed graph, contraction produces no graph if and
only if the edge index is at or beyond `num_edges` (this covers both the
external edges and the out-of-range indices of the claim), or the stored
endpoint pair is a loop, or the graph has exactly one edge — in that last
case the contracted graph has zero edges and the constructor's `_ok`
assertion (rg.py line 309, `assert self.num_edges > 0`) rejects it, a
failure mode missing from the claim's list. -/
theorem C8_contract_failure_amended (G : Graph) (e : ℕ) (hWF : graphWF G = true) :
    (contract G e).toOption = none ↔
      (G.num_edges ≤ e ∨
       (G.endpoints.getD e (none, none)).1 = (G.endpoints.getD e (none, none)).2 ∨
       G.num_edges = 1) := by
  obtain ⟨hok, hnv, hlen, hcol⟩ := wf_parts hWF
  obtain ⟨hE0, hint, hext, hcnt⟩ := okB_facts hok hlen
  by_cases he : e < G.num_edges
  · obtain ⟨a, b, hep, ha, hb, hma, hmb⟩ := hint e he
    by_cases hab : a = b
    · have herr := contract_loop_error (by omega : e < G.endpoints.length) hep
        (show (some a, some b).1 = (some a, some b).2 by rw [hab])
      rw [herr]
      exact iff_of_true rfl (Or.inr (Or.inl (by rw [hep, hab])))
    · by_cases hE1 : G.num_edges = 1
      · have hiff := contract_eq_of_internal he hlen hep hab
        have hko : ¬ (okB (contractedGraph G e a b) = true) := by
          intro h
          unfold okB at h
          simp only [Bool.and_eq_true, decide_eq_true_eq] at h
          have h0 := h.1.1.1.1
          have hfE : (contractedGraph G e a b).num_edges = G.num_edges - 1 := rfl
          omega
        rw [hiff, if_neg hko]
        exact iff_of_true rfl (Or.inr (Or.inr hE1))
      · have hiff := contract_eq_of_internal he hlen hep hab
        have hko := contracted_okB hWF he (by omega) hep hab
        rw [hiff, if_pos hko]
        constructor
        · intro h
          exact Option.noConfusion h
        · intro h
          rcases h with h | h | h
          · omega
          · rw [hep] at h
            have h' : some a = some b := h
            injection h' with h''
            exact absurd h'' hab
          · omega
  · have hres : (contract G e).toOption = none := by
      by_cases he2 : e < G.endpoints.length
      · obtain ⟨a2, hepk, ha2, hm2⟩ := hext (e - G.num_edges) (by omega)
        have hidx : G.num_edges + (e - G.num_edges) = e := by omega
        rw [hidx] at hepk
        have herr := contract_external_error he2 hepk (by simp) (Or.inr rfl)
        rw [herr]
        rfl
      · rw [contract_oob he2]
        rfl
    exact iff_of_true hres (Or.inl (by omega))

/-- **C8 counterexample.** The graph with two univalent vertices joined by
the single edge 0 is accepted by the constructor (`_ok` passes), and edge 0
is internal, in range, and not a loop — by the claim its contraction should
succeed — yet `contract` fails: the contracted graph has zero edges and is
rejected by the constructor's `assert self.num_edges > 0` (rg.py line 309). -/
theorem C8_contract_counterexample :
    graphWF (mkGraph [[0], [0]]) = true ∧
    (mkGraph [[0], [0]]).endpoints.getD 0 (none, none) = (some 0, some 1) ∧
    0 < (mkGraph [[0], [0]]).num_edges ∧
    contract (mkGraph [[0], [0]]) 0 =
      Except.error "Graph.__init__: assertion failed (_ok)" := by decide

/-- Witness for the amended C8 theorem: the triangle graph, whose edge 0 is
internal, not a loop, and not the last edge, so the equivalence instantiates
with both sides false and a successful contraction. -/
theorem C8_contract_failure_amended_witness :
    graphWF (mkGraph [[0, 1], [1, 2], [2, 0]]) = true ∧
    ((contract (mkGraph [[0, 1], [1, 2], [2, 0]]) 0).toOption = none ↔
      ((mkGraph [[0, 1], [1, 2], [2, 0]]).num_edges ≤ 0 ∨
       ((mkGraph [[0, 1], [1, 2], [2, 0]]).endpoints.getD 0 (none, none)).1 =
         ((mkGraph [[0, 1], [1, 2], [2, 0]]).endpoints.getD 0 (none, none)).2 ∨
       (mkGraph [[0, 1], [1, 2], [2, 0]]).num_edges = 1)) :=
  ⟨by decide, C8_contract_failure_amended (mkGraph [[0, 1], [1, 2], [2, 0]]) 0 (by decide)⟩

end FatGHoL
